import Mathlib

/-
  Verification of the Futoshiki CSP encoders (futoshiki_csp.py) and the
  propagator family (propagators.py).

  Variables are identified by natural-number indices (creation order,
  row-major for the encoders).  Constraints are identified by their index
  in the model's constraint list (creation order), which also models
  Python object identity for worklist membership tests.

  The variable/constraint/model storage primitives come from the external
  collaborator cspbase (not part of this repository's sources); they are
  modelled from the specification, as indicated on each definition.
-/

namespace Futoshiki

/-- Operator tag of a constraint.  The Python code uses open-ended strings;
the four recognised tags are modelled by dedicated constructors and every
other string by the constructor other. -/
inductive Tag where
  | gt
  | lt
  | ne
  | alldiff
  | other
deriving DecidableEq, Inhabited

/-- Modelled from the spec: a constraint has an operator tag, an ordered
scope of variables and a set of satisfying tuples whose order matches the
scope order. -/
structure Cons where
  tag : Tag
  scope : List Nat
  satTuples : List (List Nat)
deriving DecidableEq, Inhabited

/-- Modelled from the spec: a CSP model holds the variables' original
domains (index = variable) and the ordered constraint list. -/
structure CSPModel where
  doms : List (List Nat)
  cons : List Cons
deriving DecidableEq, Inhabited

/-- Modelled from the spec: the mutable search state, per variable the
remaining (never pruned) values of its current domain and its optional
assigned value.  This is the state cspbase.Variable shares with the
propagators. -/
structure Store where
  rem : List (List Nat)
  asg : List (Option Nat)
deriving DecidableEq, Inhabited

/-- Modelled from the spec: the current-domain accessor.  If the variable
is assigned, the current domain is the singleton of the assigned value;
otherwise it is the remaining values. -/
def curDomain (S : Store) (v : Nat) : List Nat :=
  match S.asg.getD v none with
  | some a => [a]
  | none => S.rem.getD v []

/-- Modelled from the spec: prune(value) removes a value from the
variable's underlying current-domain storage. -/
def pruneValue (S : Store) (v : Nat) (val : Nat) : Store :=
  { S with rem := S.rem.set v ((S.rem.getD v []).erase val) }

/-- Modelled from the spec: the is-assigned predicate. -/
def isAssigned (S : Store) (v : Nat) : Bool :=
  (S.asg.getD v none).isSome

/-- Modelled from the spec: a tuple is valid when every scope variable's
component lies in that variable's current domain. -/
def tupleIsValid (S : Store) (scope t : List Nat) : Bool :=
  (scope.zip t).all fun p => decide (p.2 ∈ curDomain S p.1)

/-- Modelled from the spec: has-support(variable, value) holds iff some
tuple in the constraint's satisfying set assigns that value to that
variable while every scope variable's component lies in its current
domain. -/
def hasSupport (S : Store) (c : Cons) (v val : Nat) : Bool :=
  c.satTuples.any fun t =>
    ((c.scope.zip t).any fun p => p.1 == v && p.2 == val) && tupleIsValid S c.scope t

/-- Modelled from the spec: check(tuple-of-values) tests membership in the
constraint's satisfying set. -/
def consCheck (c : Cons) (vals : List Nat) : Bool :=
  c.satTuples.contains vals

/-- Modelled from the spec: count of unassigned variables in a
constraint's scope. -/
def nUnasgn (S : Store) (c : Cons) : Nat :=
  (c.scope.filter fun w => (S.asg.getD w none).isNone).length

/-- Fallback constraint used for out-of-range constraint indices (never
reached on well-formed models). -/
def getCons (csp : CSPModel) (ci : Nat) : Cons :=
  csp.cons.getD ci default

/-- Modelled from the spec: constraints-referencing(variable), the ordered
sequence of (indices of) constraints whose scope contains the variable,
in constraint-creation order. -/
def consWithVar (csp : CSPModel) (v : Nat) : List Nat :=
  (List.range csp.cons.length).filter fun ci => decide (v ∈ (getCons csp ci).scope)

/-- Values of the scope under the current assignment, unassigned slots
holding the placeholder 0 (propagators.py builds vals this way). -/
def scopeVals (S : Store) (scope : List Nat) : List Nat :=
  scope.map fun w => (S.asg.getD w none).getD 0

/-- Loop of prop_BT over the constraints referencing the newly assigned
variable (propagators.py, prop_BT). -/
def btLoop (csp : CSPModel) (S : Store) : List Nat → Bool × List (Nat × Nat)
  | [] => (true, [])
  | ci :: rest =>
    let c := getCons csp ci
    if nUnasgn S c = 0 then
      if consCheck c (scopeVals S c.scope) then btLoop csp S rest
      else (false, [])
    else btLoop csp S rest

/-- Plain-backtracking propagator (propagators.py, prop_BT). -/
def prop_BT (csp : CSPModel) (newVar : Option Nat) (S : Store) :
    Bool × List (Nat × Nat) :=
  match newVar with
  | none => (true, [])
  | some v => btLoop csp S (consWithVar csp v)

/-- Last unassigned variable of a scope together with its position, the
way the enumeration loop in prop_FC leaves unassignedVar and
unassignedIndex. -/
def lastUnassigned (S : Store) (scope : List Nat) : Option (Nat × Nat) :=
  scope.enum.foldl
    (fun acc iw => if (S.asg.getD iw.2 none).isNone then some (iw.2, iw.1) else acc)
    none

/-- Value loop of prop_FC: test every value of the snapshot of the
unassigned variable's current domain, pruning (and recording) each value
whose substituted tuple fails the constraint check. -/
def fcRevise (c : Cons) (uv uidx : Nat) (vals : List Nat) :
    List Nat → Store → List (Nat × Nat) → Store × List (Nat × Nat)
  | [], S, p => (S, p)
  | val :: vs, S, p =>
    if consCheck c (vals.set uidx val) then fcRevise c uv uidx vals vs S p
    else fcRevise c uv uidx vals vs (pruneValue S uv val) (p ++ [(uv, val)])

/-- Constraint loop of prop_FC: examine each constraint with exactly one
unassigned variable; after its value loop, return failure if that
variable's current domain is empty. -/
def fcLoop (csp : CSPModel) :
    List Nat → Store → List (Nat × Nat) → Bool × List (Nat × Nat) × Store
  | [], S, p => (true, p, S)
  | ci :: rest, S, p =>
    let c := getCons csp ci
    if nUnasgn S c = 1 then
      match lastUnassigned S c.scope with
      | none => fcLoop csp rest S p
      | some (uv, uidx) =>
        match fcRevise c uv uidx (scopeVals S c.scope) (curDomain S uv) S p with
        | (S1, p1) =>
          if curDomain S1 uv = [] then (false, p1, S1)
          else fcLoop csp rest S1 p1
    else fcLoop csp rest S p

/-- Forward-checking propagator (propagators.py, prop_FC); the final store
is returned alongside the verdict and prune list because the Python code
mutates the model in place. -/
def prop_FC (csp : CSPModel) (newVar : Option Nat) (S : Store) :
    Bool × List (Nat × Nat) × Store :=
  match newVar with
  | some v => fcLoop csp (consWithVar csp v) S []
  | none => fcLoop csp (List.range csp.cons.length) S []

/-- Value loop of prop_GAC on a popped pair: prune every unsupported value
of the snapshot, returning immediately (third component true) when the
variable's current domain empties. -/
def gacRevise (c : Cons) (v : Nat) :
    List Nat → Store → List (Nat × Nat) → Store × List (Nat × Nat) × Bool
  | [], S, acc => (S, acc, false)
  | val :: vs, S, acc =>
    if hasSupport S c v val then gacRevise c v vs S acc
    else if curDomain (pruneValue S v val) v = [] then
      (pruneValue S v val, acc ++ [(v, val)], true)
    else gacRevise c v vs (pruneValue S v val) (acc ++ [(v, val)])

/-- Worklist extension of prop_GAC after the popped variable's domain
shrank: append (u, c) for every constraint c referencing the variable and
every u in its scope other than the variable, skipping pairs already in
the worklist. -/
def gacEnqueue (csp : CSPModel) (q0 : List (Nat × Nat)) (v : Nat) : List (Nat × Nat) :=
  (consWithVar csp v).foldl
    (fun q ci =>
      (getCons csp ci).scope.foldl
        (fun q2 w =>
          if w = v then q2
          else if (w, ci) ∈ q2 then q2
          else q2 ++ [(w, ci)])
        q)
    q0

/-- FIFO worklist loop of prop_GAC, with explicit fuel standing for the
number of loop iterations still allowed (the Python loop has no bound). -/
def gacLoop (csp : CSPModel) :
    Nat → List (Nat × Nat) → Store → List (Nat × Nat) →
    Option (Bool × List (Nat × Nat) × Store)
  | 0, _, _, _ => none
  | _ + 1, [], S, p => some (true, p, S)
  | n + 1, (v, ci) :: rest, S, p =>
    match gacRevise (getCons csp ci) v (curDomain S v) S [] with
    | (S1, ps, wiped) =>
      if wiped then some (false, p ++ ps, S1)
      else gacLoop csp n (if ps = [] then rest else gacEnqueue csp rest v) S1 (p ++ ps)

/-- Initial worklist of prop_GAC: all (variable, constraint) pairs of the
constraints referencing the newly assigned variable, or of all
constraints when no variable was newly assigned. -/
def gacSeed (csp : CSPModel) (newVar : Option Nat) : List (Nat × Nat) :=
  let cis := match newVar with
    | some v => consWithVar csp v
    | none => List.range csp.cons.length
  cis.foldr (fun ci acc => ((getCons csp ci).scope.map fun w => (w, ci)) ++ acc) []

/-- GAC propagator (propagators.py, prop_GAC), fuel-instrumented: a result
of none means the loop had not finished within the given number of
iterations. -/
def prop_GAC (csp : CSPModel) (newVar : Option Nat) (S : Store) (fuel : Nat) :
    Option (Bool × List (Nat × Nat) × Store) :=
  gacLoop csp fuel (gacSeed csp newVar) S []

/-- Pairwise-distinctness check of futoshiki_csp.py (all_different_check),
the nested index loops rendered as structural recursion. -/
def allDifferentCheck : List Nat → Bool
  | [] => true
  | x :: xs => (xs.all fun y => !(x == y)) && allDifferentCheck xs

/-- Operator dispatch table of check_constraint_add_tuples: the switch
dictionary, whose lookup misses (None) on any tag outside the four
recognised ones. -/
def switch (tag : Tag) : Option (List Nat → Bool) :=
  match tag with
  | .gt => some fun t => decide (t.getD 1 0 < t.getD 0 0)
  | .lt => some fun t => decide (t.getD 0 0 < t.getD 1 0)
  | .ne => some fun t => !(t.getD 0 0 == t.getD 1 0)
  | .alldiff => some allDifferentCheck
  | .other => none

/-- Cartesian product of a list of domains in scope order, leftmost
component varying slowest, as itertools.product enumerates it. -/
def listProd : List (List Nat) → List (List Nat)
  | [] => [[]]
  | d :: ds => (d.map fun x => (listProd ds).map fun t => x :: t).flatten

/-- Tuple loop of check_constraint_add_tuples: filter the enumerated
tuples through the dispatched predicate, looking the predicate up per
tuple; none models the TypeError raised on a missed lookup (note that an
empty tuple enumeration never performs a lookup). -/
def materializeTuples (tag : Tag) : List (List Nat) → Option (List (List Nat))
  | [] => some []
  | t :: ts =>
    match switch tag with
    | none => none
    | some pred =>
      match materializeTuples tag ts with
      | none => none
      | some rest => some (if pred t then t :: rest else rest)

/-- Materializer of futoshiki_csp.py (check_constraint_add_tuples): reads
each scope variable's original domain via Variable.domain() and keeps the
tuples of their Cartesian product accepted by the dispatched operator
predicate. -/
def check_constraint_add_tuples (doms : List (List Nat)) (tag : Tag)
    (scope : List Nat) : Option (List (List Nat)) :=
  materializeTuples tag (listProd (scope.map fun w => doms.getD w []))

/-- Constraint construction followed by materialization, the way both
encoders create every constraint; the default empty tuple set is never
used because every encoder tag hits the dispatch table. -/
def mkCons (doms : List (List Nat)) (tag : Tag) (scope : List Nat) : Cons :=
  ⟨tag, scope, (check_constraint_add_tuples doms tag scope).getD []⟩

/-- Board token: a cell value (0 = blank) or an inequality token; sother
models any string other than the three recognised inequality tokens. -/
inductive SymTok where
  | sgt
  | slt
  | sdot
  | sother
deriving DecidableEq, Inhabited

/-- Token of the interleaved board row representation. -/
inductive Tok where
  | num (k : Nat)
  | sym (s : SymTok)
deriving DecidableEq, Inhabited

/-- Full domain 1..n of a blank cell (futoshiki_csp.py, full_domain). -/
def fullDomain (n : Nat) : List Nat :=
  (List.range n).map (· + 1)

/-- Domain of one cell token: full domain for a blank, singleton for a
fixed value; the sym case is unreachable on well-formed boards, where
cell positions hold numbers. -/
def cellDomain (n : Nat) : Tok → List Nat
  | .num 0 => fullDomain n
  | .num k => [k]
  | .sym _ => [0]

/-- Domains of the variables created from one row, following the
number/symbol toggle of the encoders' parsing loop. -/
def rowDomains (n : Nat) : List Tok → Bool → List (List Nat)
  | [], _ => []
  | t :: ts, number =>
    if number then cellDomain n t :: rowDomains n ts false
    else rowDomains n ts true

/-- Original domains of all variables, row-major in creation order. -/
def boardDomains (board : List (List Tok)) : List (List Nat) :=
  (board.map fun row => rowDomains board.length row true).flatten

/-- Grid of variable indices: variable_array with each Variable replaced
by its creation index. -/
def varGrid (board : List (List Tok)) : List (List Nat) :=
  (board.foldl
    (fun acc row =>
      let cnt := (rowDomains board.length row true).length
      (acc.1 ++ [(List.range cnt).map (· + acc.2)], acc.2 + cnt))
    ([], 0)).1

/-- Variable index at cell (i, j) of the grid. -/
def gridGet (grid : List (List Nat)) (i j : Nat) : Nat :=
  (grid.getD i []).getD j 0

/-- Indices k+1 .. s-1, the inner while-loop ranges of model 1's row and
column constraint generation. -/
def pairsFrom (s k : Nat) : List Nat :=
  List.range' (k + 1) (s - (k + 1))

/-- Binary not-equal constraints of model 1: for every cell, a constraint
against every later cell of its row, then against every later cell of its
column, in loop order. -/
def m1RowColCons (doms : List (List Nat)) (grid : List (List Nat)) (size : Nat) :
    List Cons :=
  (List.range size).flatMap fun i =>
    (List.range size).flatMap fun a =>
      ((pairsFrom size a).map fun j =>
        mkCons doms .ne [gridGet grid i a, gridGet grid i j]) ++
      ((pairsFrom size i).map fun k =>
        mkCons doms .ne [gridGet grid i a, gridGet grid k a])

/-- Tag of a constraint created from a board token at a symbol position:
the two inequality tokens map to their operators, anything else to a tag
outside the dispatch table. -/
def tokTag : Tok → Tag
  | .sym .sgt => .gt
  | .sym .slt => .lt
  | _ => .other

/-- Inequality constraints of one row: at each symbol position a
constraint over the two adjacent cells unless the token is the dot, with
the index of the preceding number carried through the toggle. -/
def rowSymCons (doms : List (List Nat)) (grid : List (List Nat)) (i : Nat) :
    List Tok → Nat → Bool → List Cons
  | [], _, _ => []
  | t :: ts, j, isSym =>
    if isSym then
      (if t = Tok.sym .sdot then []
       else [mkCons doms (tokTag t) [gridGet grid i j, gridGet grid i (j + 1)]]) ++
      rowSymCons doms grid i ts (j + 1) false
    else rowSymCons doms grid i ts j true

/-- Inequality constraints of the whole board, row by row. -/
def symConsAll (doms : List (List Nat)) (grid : List (List Nat))
    (board : List (List Tok)) : List Cons :=
  (board.enum.map fun p => rowSymCons doms grid p.1 p.2 0 false).flatten

/-- Encoder variant A (futoshiki_csp.py, futoshiki_csp_model_1): binary
not-equal constraints for all row and column pairs, then the board's
inequality constraints. -/
def futoshiki_csp_model_1 (board : List (List Tok)) : CSPModel × List (List Nat) :=
  let doms := boardDomains board
  let grid := varGrid board
  (⟨doms, m1RowColCons doms grid board.length ++ symConsAll doms grid board⟩, grid)

/-- Encoder variant B (futoshiki_csp.py, futoshiki_csp_model_2): one
all-different constraint per row and per column, then the board's
inequality constraints. -/
def futoshiki_csp_model_2 (board : List (List Tok)) : CSPModel × List (List Nat) :=
  let doms := boardDomains board
  let grid := varGrid board
  let rowAD := (List.range board.length).map fun i => mkCons doms .alldiff (grid.getD i [])
  let colAD := (List.range board.length).map fun j =>
    mkCons doms .alldiff (grid.map fun r => r.getD j 0)
  (⟨doms, rowAD ++ colAD ++ symConsAll doms grid board⟩, grid)

/-- State predicate: no variable is assigned (the situation of the
pre-search propagator call). -/
def NoAssigned (S : Store) : Prop :=
  ∀ v, S.asg.getD v none = none

/-- Store well-formedness: every variable's remaining-value list holds no
duplicates (cspbase keeps one membership flag per domain value). -/
def RemNodup (S : Store) : Prop :=
  ∀ v, (S.rem.getD v []).Nodup

/-- Model well-formedness: every constraint's scope lists distinct
variables (true of all encoder-produced constraints). -/
def ScopesNodup (csp : CSPModel) : Prop :=
  ∀ ci, (getCons csp ci).scope.Nodup

/-- Total number of remaining values across all variables, the measure
that shrinks with every actual pruning. -/
def totalRem (S : Store) : Nat :=
  (S.rem.map List.length).sum

/-- Replay of a prune list onto a store, the restoration contract's view
of what a returned prune list denotes. -/
def applyPrunes (S : Store) (p : List (Nat × Nat)) : Store :=
  p.foldl (fun s pr => pruneValue s pr.1 pr.2) S

/-- Termination of a prop_GAC call: some amount of fuel suffices for the
worklist loop to return. -/
def gacTerminates (csp : CSPModel) (newVar : Option Nat) (S : Store) : Prop :=
  ∃ fuel out, prop_GAC csp newVar S fuel = some out

/-- Arc consistency of a store with respect to a model: every value of
every scope variable of every constraint has support. -/
def achievedAC (csp : CSPModel) (S : Store) : Prop :=
  ∀ ci, ci < csp.cons.length → ∀ v ∈ (getCons csp ci).scope,
    ∀ val ∈ curDomain S v, hasSupport S (getCons csp ci) v val = true

/-- Worklist loop invariant: every (variable, constraint) pair not pending
in the worklist is already arc consistent. -/
def gacInv (csp : CSPModel) (q : List (Nat × Nat)) (S : Store) : Prop :=
  ∀ ci, ci < csp.cons.length → ∀ v ∈ (getCons csp ci).scope, (v, ci) ∉ q →
    ∀ val ∈ curDomain S v, hasSupport S (getCons csp ci) v val = true

/-- Legal worklist: every pending pair joins a scope variable of an
existing constraint. -/
def QOK (csp : CSPModel) (q : List (Nat × Nat)) : Prop :=
  ∀ pr ∈ q, pr.2 < csp.cons.length ∧ pr.1 ∈ (getCons csp pr.2).scope

/-- Worklist extension as the specification words it, re-enqueueing only
for constraints OTHER than the one just processed (modelled from the
spec for comparison with the code's gacEnqueue). -/
def gacEnqueueClaim (csp : CSPModel) (q0 : List (Nat × Nat)) (v popped : Nat) :
    List (Nat × Nat) :=
  ((consWithVar csp v).filter (fun ci => ci ≠ popped)).foldl
    (fun q ci =>
      (getCons csp ci).scope.foldl
        (fun q2 w =>
          if w = v then q2
          else if (w, ci) ∈ q2 then q2
          else q2 ++ [(w, ci)])
        q)
    q0

/-- Materializer as the specification words it, enumerating the Cartesian
product of the scope's CURRENT domains (modelled from the spec for
comparison with the code's check_constraint_add_tuples). -/
def materializeFromCurrent (S : Store) (tag : Tag) (scope : List Nat) :
    Option (List (List Nat)) :=
  materializeTuples tag (listProd (scope.map fun w => curDomain S w))

/-- Model of the C1/C2 scenario: variable 0 assigned an unsupported value,
variable 1 unassigned, variable 2 assigned; two constraints over
variables 0 and 1 and one over variables 1 and 2. -/
def dupCsp : CSPModel :=
  ⟨[[1, 2], [1, 2], [1, 2]],
   [⟨.gt, [0, 1], [[2, 2]]⟩, ⟨.gt, [0, 1], [[2, 1]]⟩, ⟨.gt, [1, 2], [[1, 2], [2, 1]]⟩]⟩

/-- State for the C1 scenario. -/
def dupStore : Store :=
  ⟨[[1, 2], [1, 2], [1, 2]], [some 1, none, some 2]⟩

/-- Model of the C2 scenario: variable 0 assigned a value with no support
against the unassigned variable 1. -/
def asgCsp : CSPModel :=
  ⟨[[1, 2], [1]], [⟨.gt, [0, 1], [[2, 1]]⟩]⟩

/-- State for the C2 scenario. -/
def asgStore : Store :=
  ⟨[[1, 2], [1]], [some 1, none]⟩

/-- Model of the C3 scenario: constraint 0 touches the newly assigned
variable 0 and is already arc consistent; constraint 1 over variables 2
and 3 is not. -/
def idemCsp : CSPModel :=
  ⟨[[1, 2], [1, 2], [1, 2], [1]],
   [⟨.ne, [0, 1], [[1, 1], [1, 2], [2, 1]]⟩, ⟨.ne, [2, 3], [[1, 1]]⟩]⟩

/-- State for the C3 scenario. -/
def idemStore : Store :=
  ⟨[[1, 2], [1, 2], [1, 2], [1]], [some 1, none, none, none]⟩

/-- Model of the C4 scenario: a single binary constraint whose second
variable prunes after the first was already popped. -/
def enqCsp : CSPModel :=
  ⟨[[1, 2], [1, 2]], [⟨.gt, [0, 1], [[1, 1], [2, 1]]⟩]⟩

/-- State for the C4 scenario (also the C8 amended-claim witness). -/
def enqStore : Store :=
  ⟨[[1, 2], [1, 2]], [none, none]⟩

/-- Model of the C8 scenario: both variables assigned values jointly
violating the single constraint. -/
def loopCsp : CSPModel :=
  ⟨[[1, 2], [1, 2]], [⟨.gt, [0, 1], [[2, 1]]⟩]⟩

/-- State for the C8 scenario. -/
def loopStore : Store :=
  ⟨[[1, 2], [1, 2]], [some 1, some 1]⟩

/-- Fixed point of the C8 cycle: the store reached after the first two
iterations, from which the worklist alternates forever. -/
def loopStore2 : Store :=
  ⟨[[2], [2]], [some 1, some 1]⟩

/-- Model of the C5 witness: forward checking wipes out the domain of the
unassigned variable 1. -/
def wipeCsp : CSPModel :=
  ⟨[[1, 2], [1]], [⟨.gt, [0, 1], [[2, 1]]⟩]⟩

/-- State for the C5 witness. -/
def wipeStore : Store :=
  ⟨[[1, 2], [1]], [some 1, none]⟩

/-- Store of the C7 scenario: variable 0's current domain is a proper
subset of its original domain. -/
def matStore : Store :=
  ⟨[[1], [1, 2]], [none, none]⟩

/-- Well-formed 2-by-2 board with one inequality token, used by
hypothesis-discharging witnesses. -/
def board2 : List (List Tok) :=
  [[Tok.num 0, Tok.sym .slt, Tok.num 0], [Tok.num 0, Tok.sym .sdot, Tok.num 0]]

/-- C1: at this reachable state (variable 0 assigned the unsupported value
1), prop_GAC returns a prune list that reports the pair (0, 1) twice,
although its second pruning removed nothing: the code contradicts its own
header note that a propagator must not prune a value twice. -/
theorem gac_prune_list_duplicates_run :
    prop_GAC dupCsp (some 2) dupStore 50 =
      some (false, [(1, 2), (0, 1), (0, 1), (1, 1)],
        ⟨[[2], [], [1, 2]], [some 1, none, some 2]⟩) ∧
    ¬ ([(1, 2), (0, 1), (0, 1), (1, 1)] : List (Nat × Nat)).Nodup :=
  ⟨rfl, by decide⟩

/-- C2: prop_GAC prunes the pair (0, 1) although variable 0 is assigned
the value 1 at that moment, refuting the claim that no propagator ever
prunes an assigned variable's value. -/
theorem gac_prunes_assigned_value_run :
    prop_GAC asgCsp (some 0) asgStore 50 =
      some (false, [(0, 1), (1, 1)], ⟨[[2], []], [some 1, none]⟩) ∧
    asgStore.asg.getD 0 none = some 1 :=
  ⟨rfl, rfl⟩

/-- C3: an incremental prop_GAC call (newly assigned variable 0) succeeds
with no pruning and no domain change, yet immediately re-invoking
prop_GAC with no newly-assigned variable prunes (2, 2): a successful
incremental call does not put the whole model at a fixed point. -/
theorem gac_incremental_success_not_fixed_point :
    prop_GAC idemCsp (some 0) idemStore 50 = some (true, [], idemStore) ∧
    prop_GAC idemCsp none idemStore 50 =
      some (true, [(2, 2)], ⟨[[1, 2], [1, 2], [1], [1]], [some 1, none, none, none]⟩) ∧
    ([(2, 2)] : List (Nat × Nat)) ≠ [] :=
  ⟨rfl, rfl, by decide⟩

/-- C4: after the popped pair (1, c0) prunes, the code re-enqueues
(0, c0) for the very constraint it just processed, while the claim's
reading (only OTHER constraints referencing the variable) would enqueue
nothing; the configuration is reached by the run in the last conjunct. -/
theorem gac_reenqueues_popped_constraint :
    gacEnqueue enqCsp [] 1 = [(0, 0)] ∧
    gacEnqueueClaim enqCsp [] 1 0 = [] ∧
    gacEnqueue enqCsp [] 1 ≠ gacEnqueueClaim enqCsp [] 1 0 ∧
    prop_GAC enqCsp none enqStore 50 =
      some (true, [(1, 2)], ⟨[[1, 2], [1]], [none, none]⟩) :=
  ⟨rfl, rfl, by decide, rfl⟩

/-- C6: on the 1-by-1 board, encoder variant B produces two constraints
(one row and one column all-different), not zero as claimed. -/
theorem model2_n1_has_constraints :
    (futoshiki_csp_model_2 [[Tok.num 0]]).1.cons.length = 2 ∧
    (futoshiki_csp_model_2 [[Tok.num 0]]).1.cons ≠ [] :=
  ⟨rfl, by decide⟩

/-- C6 amended: for every 1-by-1 board, variant A yields one variable and
no constraints, while variant B yields one variable and exactly two
arity-1 all-different constraints (one for the row, one for the column). -/
theorem encoders_n1_models :
    ∀ t : Tok,
      (futoshiki_csp_model_1 [[t]]).1.cons = [] ∧
      (futoshiki_csp_model_1 [[t]]).1.doms.length = 1 ∧
      (futoshiki_csp_model_1 [[t]]).2 = [[0]] ∧
      (futoshiki_csp_model_2 [[t]]).1.doms.length = 1 ∧
      (futoshiki_csp_model_2 [[t]]).1.cons.length = 2 ∧
      (∀ c ∈ (futoshiki_csp_model_2 [[t]]).1.cons, c.tag = .alldiff ∧ c.scope = [0]) := by
  intro t
  refine ⟨rfl, rfl, rfl, rfl, rfl, ?_⟩
  intro c hc
  have hcons : (futoshiki_csp_model_2 [[t]]).1.cons =
      [mkCons [cellDomain 1 t] .alldiff [0], mkCons [cellDomain 1 t] .alldiff [0]] := rfl
  rw [hcons] at hc
  simp only [List.mem_cons, List.not_mem_nil, or_false] at hc
  rcases hc with h | h
  · rw [h]; exact ⟨rfl, rfl⟩
  · rw [h]; exact ⟨rfl, rfl⟩

/-- C7: with variable 0's current domain pruned to [1] inside an original
domain [1, 2], the materializer still enumerates the original domains and
keeps [2, 1], while the claimed current-domain enumeration would keep
nothing: check_constraint_add_tuples reads Variable.domain(), not the
current domains. -/
theorem materializer_uses_original_domains_run :
    check_constraint_add_tuples [[1, 2], [1, 2]] .gt [0, 1] = some [[2, 1]] ∧
    materializeFromCurrent matStore .gt [0, 1] = some [] ∧
    check_constraint_add_tuples [[1, 2], [1, 2]] .gt [0, 1] ≠
      materializeFromCurrent matStore .gt [0, 1] :=
  ⟨rfl, rfl, by decide⟩

/-- Cycle of the C8 scenario: from loopStore2 the worklist alternates
between the pairs (0, c0) and (1, c0) forever, each iteration re-pruning
the assigned value (whose current domain stays the assigned singleton),
so the loop exhausts any amount of fuel. -/
theorem gacLoop_cycle_none :
    ∀ n p, gacLoop loopCsp n [(0, 0)] loopStore2 p = none ∧
      gacLoop loopCsp n [(1, 0)] loopStore2 p = none := by
  intro n
  induction n with
  | zero => intro p; exact ⟨rfl, rfl⟩
  | succ n ih =>
    intro p
    constructor
    · have h : gacLoop loopCsp (n + 1) [(0, 0)] loopStore2 p =
          gacLoop loopCsp n [(1, 0)] loopStore2 (p ++ [(0, 1)]) := rfl
      rw [h]
      exact (ih (p ++ [(0, 1)])).2
    · have h : gacLoop loopCsp (n + 1) [(1, 0)] loopStore2 p =
          gacLoop loopCsp n [(0, 0)] loopStore2 (p ++ [(1, 1)]) := rfl
      rw [h]
      exact (ih (p ++ [(1, 1)])).1

/-- Divergence of a prop_GAC call: the worklist loop exhausts every
amount of fuel without returning. -/
def gacNeverReturns (csp : CSPModel) (newVar : Option Nat) (S : Store) : Prop :=
  ∀ fuel, prop_GAC csp newVar S fuel = none

/-- C8: with variables 0 and 1 both assigned 1 against the constraint
requiring the first to exceed the second, the prop_GAC worklist loop
never terminates: no amount of fuel makes the call return. -/
theorem gac_nonterminating_run : gacNeverReturns loopCsp (some 0) loopStore := by
  intro n
  match n with
  | 0 => rfl
  | 1 => rfl
  | 2 => rfl
  | (m + 3) =>
    have h2 : prop_GAC loopCsp (some 0) loopStore (m + 3) =
        gacLoop loopCsp (m + 1) [(0, 0)] loopStore2 [(0, 1), (1, 1)] := rfl
    rw [h2, (gacLoop_cycle_none (m + 1) [(0, 1), (1, 1)]).1]

/-- List update at one index leaves every other index's getD unchanged. -/
theorem getD_set_ne {α : Type} (l : List α) (i j : Nat) (x d : α) (h : i ≠ j) :
    (l.set i x).getD j d = l.getD j d := by
  induction l generalizing i j with
  | nil => simp [List.set]
  | cons a as ih =>
    cases i with
    | zero => cases j with
      | zero => exact absurd rfl h
      | succ j => simp [List.set]
    | succ i => cases j with
      | zero => simp [List.set]
      | succ j =>
        simp only [List.set, List.getD_cons_succ]
        exact ih i j (by omega)

/-- List update at an in-range index is observed by getD there. -/
theorem getD_set_self {α : Type} (l : List α) (i : Nat) (x d : α) (h : i < l.length) :
    (l.set i x).getD i d = x := by
  rw [List.getD_eq_getElem _ _ (by simpa using h)]
  exact List.getElem_set_self (by simpa using h)

/-- Membership in a getD slice forces the index in range. -/
theorem mem_getD_lt (l : List (List Nat)) (v x : Nat) (h : x ∈ l.getD v []) :
    v < l.length := by
  by_contra hge
  rw [List.getD_eq_default _ _ (by omega)] at h
  cases h

/-- Total length of a list of lists after an in-range update. -/
theorem sumLen_set (l : List (List Nat)) (i : Nat) (x : List Nat) (h : i < l.length) :
    ((l.set i x).map List.length).sum + (l.getD i []).length =
      (l.map List.length).sum + x.length := by
  induction l generalizing i with
  | nil => simp at h
  | cons a as ih =>
    cases i with
    | zero => simp [List.set]; omega
    | succ i =>
      simp only [List.set, List.map_cons, List.sum_cons, List.getD_cons_succ]
      have := ih i (by simpa using h)
      omega

/-- Pruning does not touch assignments. -/
theorem pruneValue_asg (S : Store) (v val : Nat) : (pruneValue S v val).asg = S.asg := rfl

/-- Pruning one variable leaves the other variables' remaining values. -/
theorem pruneValue_rem_ne (S : Store) (v val w : Nat) (h : w ≠ v) :
    (pruneValue S v val).rem.getD w [] = S.rem.getD w [] :=
  getD_set_ne _ _ _ _ _ (fun he => h he.symm)

/-- Remaining values of the pruned variable, when it exists. -/
theorem pruneValue_rem_self (S : Store) (v val : Nat) (h : v < S.rem.length) :
    (pruneValue S v val).rem.getD v [] = (S.rem.getD v []).erase val :=
  getD_set_self _ _ _ _ h

/-- An actual pruning removes exactly one remaining value. -/
theorem totalRem_prune (S : Store) (v val : Nat) (h : val ∈ S.rem.getD v []) :
    totalRem (pruneValue S v val) + 1 = totalRem S := by
  have hv : v < S.rem.length := mem_getD_lt _ _ _ h
  have hsum := sumLen_set S.rem v ((S.rem.getD v []).erase val) hv
  have hlen := List.length_erase_add_one h
  unfold totalRem pruneValue
  simp only at hsum ⊢
  omega

/-- Pruning preserves duplicate-freeness of the remaining values. -/
theorem RemNodup_prune (S : Store) (v val : Nat) (h : RemNodup S) :
    RemNodup (pruneValue S v val) := by
  intro w
  by_cases hw : w = v
  · subst hw
    by_cases hv : w < S.rem.length
    · rw [pruneValue_rem_self S w val hv]
      exact (h w).erase val
    · unfold pruneValue
      simp only
      rw [List.set_eq_of_length_le (by omega)]
      exact h w
  · rw [pruneValue_rem_ne S v val w hw]
    exact h w

/-- Equal assignments transfer the no-assignment predicate. -/
theorem noAssigned_of_asg_eq (S T : Store) (h : T.asg = S.asg) (hna : NoAssigned S) :
    NoAssigned T := by
  intro v
  rw [h]
  exact hna v

/-- Current domain of an unassigned variable is its remaining-value list. -/
theorem curDomain_eq_rem (S : Store) (v : Nat) (h : S.asg.getD v none = none) :
    curDomain S v = S.rem.getD v [] := by
  unfold curDomain
  rw [h]

/-- Current domains agree when assignments and remaining values agree. -/
theorem curDomain_congr (S T : Store) (w : Nat) (hasg : T.asg = S.asg)
    (hrem : T.rem.getD w [] = S.rem.getD w []) : curDomain T w = curDomain S w := by
  unfold curDomain
  rw [hasg, hrem]

/-- Boolean any respects pointwise equality on the list. -/
theorem any_congr {α : Type} (l : List α) (f g : α → Bool) (h : ∀ x ∈ l, f x = g x) :
    l.any f = l.any g := by
  induction l with
  | nil => rfl
  | cons x xs ih =>
    simp only [List.any_cons]
    rw [h x (by simp), ih fun y hy => h y (by simp [hy])]

/-- Boolean all respects pointwise equality on the list. -/
theorem all_congr {α : Type} (l : List α) (f g : α → Bool) (h : ∀ x ∈ l, f x = g x) :
    l.all f = l.all g := by
  induction l with
  | nil => rfl
  | cons x xs ih =>
    simp only [List.all_cons]
    rw [h x (by simp), ih fun y hy => h y (by simp [hy])]

/-- Support is untouched by store changes outside the constraint's scope. -/
theorem hasSupport_congr (S T : Store) (c : Cons) (u val : Nat)
    (h : ∀ w ∈ c.scope, curDomain T w = curDomain S w) :
    hasSupport T c u val = hasSupport S c u val := by
  unfold hasSupport
  apply any_congr
  intro t _
  congr 1
  unfold tupleIsValid
  apply all_congr
  intro p hp
  rw [h p.1 (List.of_mem_zip hp).1]

/-- In a zip against a duplicate-free first list, the second component is
determined by the first. -/
theorem zip_nodup_snd_eq (v x y : Nat) :
    ∀ (scope t : List Nat), scope.Nodup →
      (v, x) ∈ scope.zip t → (v, y) ∈ scope.zip t → x = y := by
  intro scope
  induction scope with
  | nil => intro t _ hx; cases hx
  | cons s ss ih =>
    intro t hnd hx hy
    cases t with
    | nil => cases hx
    | cons a as =>
      simp only [List.zip_cons_cons, List.mem_cons] at hx hy
      rcases hx with hx | hx
      · rcases hy with hy | hy
        · have h1 : x = a := ((Prod.mk.injEq _ _ _ _).mp hx).2
          have h2 : y = a := ((Prod.mk.injEq _ _ _ _).mp hy).2
          rw [h1, h2]
        · exfalso
          have hs : s = v := ((Prod.mk.injEq _ _ _ _).mp hx).1.symm
          have : v ∈ ss := (List.of_mem_zip hy).1
          rw [← hs] at this
          exact (List.nodup_cons.mp hnd).1 this
      · rcases hy with hy | hy
        · exfalso
          have hs : s = v := ((Prod.mk.injEq _ _ _ _).mp hy).1.symm
          have : v ∈ ss := (List.of_mem_zip hx).1
          rw [← hs] at this
          exact (List.nodup_cons.mp hnd).1 this
        · exact ih as (List.nodup_cons.mp hnd).2 hx hy

/-- Support for a kept value survives shrinking the supported variable's
own domain, provided the scope is duplicate-free and every other
variable's current domain is unchanged. -/
theorem hasSupport_shrink (S T : Store) (c : Cons) (v val : Nat)
    (hnd : c.scope.Nodup) (hasg : T.asg = S.asg)
    (hrem : ∀ w, w ≠ v → T.rem.getD w [] = S.rem.getD w [])
    (hval : val ∈ curDomain T v)
    (hsup : hasSupport S c v val = true) : hasSupport T c v val = true := by
  unfold hasSupport at hsup ⊢
  simp only [List.any_eq_true, Bool.and_eq_true] at hsup ⊢
  obtain ⟨t, htmem, hpair, hvalid⟩ := hsup
  refine ⟨t, htmem, hpair, ?_⟩
  simp only [List.any_eq_true, Bool.and_eq_true, beq_iff_eq] at hpair
  obtain ⟨pw, hpwmem, hpw1, hpw2⟩ := hpair
  unfold tupleIsValid at hvalid ⊢
  simp only [List.all_eq_true, decide_eq_true_eq] at hvalid ⊢
  intro p hp
  by_cases hpv : p.1 = v
  · have hpzip : (v, p.2) ∈ c.scope.zip t := by
      rw [← hpv]
      exact hp
    have hwzip : (v, val) ∈ c.scope.zip t := by
      have : pw = (v, val) := Prod.ext hpw1 hpw2
      rw [← this]
      exact hpwmem
    have : p.2 = val := zip_nodup_snd_eq v p.2 val c.scope t hnd hpzip hwzip
    rw [hpv, this]
    exact hval
  · rw [curDomain_congr S T p.1 hasg (hrem p.1 hpv)]
    exact hvalid p hp

/-- Remaining values of the pruned variable only shrink. -/
theorem pruneValue_rem_subset (S : Store) (v val : Nat) :
    ∀ x ∈ (pruneValue S v val).rem.getD v [], x ∈ S.rem.getD v [] := by
  by_cases h : v < S.rem.length
  · rw [pruneValue_rem_self S v val h]
    exact fun x hx => List.erase_subset _ _ hx
  · unfold pruneValue
    simp only
    rw [List.set_eq_of_length_le (by omega)]
    exact fun x hx => hx

/-- Complete behaviour of the prop_GAC value loop on an unassigned
variable: assignments are untouched, other variables keep their
remaining values, only listed values are removed, a non-empty batch of
new prunings strictly shrinks the total domain mass, and on a non-wipe
return every surviving snapshot value has support in the final store. -/
theorem gacRevise_spec (c : Cons) (v : Nat) :
    ∀ (vals : List Nat) (S : Store) (acc : List (Nat × Nat))
      (S1 : Store) (ps : List (Nat × Nat)) (wiped : Bool),
      NoAssigned S → RemNodup S → vals.Nodup →
      (∀ x ∈ vals, x ∈ S.rem.getD v []) →
      gacRevise c v vals S acc = (S1, ps, wiped) →
      S1.asg = S.asg ∧ RemNodup S1 ∧
      (∀ w, w ≠ v → S1.rem.getD w [] = S.rem.getD w []) ∧
      (∀ x ∈ S1.rem.getD v [], x ∈ S.rem.getD v []) ∧
      (∃ nw, ps = acc ++ nw ∧ (nw = [] → S1 = S) ∧
        (nw ≠ [] → totalRem S1 < totalRem S)) ∧
      (c.scope.Nodup → wiped = false → ∀ val2 ∈ vals,
        val2 ∈ S1.rem.getD v [] → hasSupport S1 c v val2 = true) := by
  intro vals
  induction vals with
  | nil =>
    intro S acc S1 ps wiped hna hrd _ _ heq
    simp only [gacRevise] at heq
    injection heq with h1 h23
    injection h23 with h2 h3
    subst h1 h2 h3
    refine ⟨rfl, hrd, fun w _ => rfl, fun x hx => hx, ⟨[], by simp, fun _ => rfl, fun h => absurd rfl h⟩, ?_⟩
    intro _ _ val2 hval2
    cases hval2
  | cons val vs ih =>
    intro S acc S1 ps wiped hna hrd hvnd hsub heq
    simp only [gacRevise] at heq
    by_cases hsup : hasSupport S c v val = true
    · rw [if_pos hsup] at heq
      have hrec := ih S acc S1 ps wiped hna hrd (List.nodup_cons.mp hvnd).2
        (fun x hx => hsub x (List.mem_cons_of_mem val hx)) heq
      obtain ⟨hasg, hrd1, hremne, hsubv, hnw, hsupcl⟩ := hrec
      refine ⟨hasg, hrd1, hremne, hsubv, hnw, ?_⟩
      intro hscn hwf val2 hval2 hval2mem
      rcases List.mem_cons.mp hval2 with h | h
      · subst h
        refine hasSupport_shrink S S1 c v val2 hscn hasg hremne ?_ hsup
        rw [curDomain_eq_rem S1 v (noAssigned_of_asg_eq S S1 hasg hna v)]
        exact hval2mem
      · exact hsupcl hscn hwf val2 h hval2mem
    · rw [if_neg hsup] at heq
      have hval_mem : val ∈ S.rem.getD v [] := hsub val (List.mem_cons_self val vs)
      have hvrange : v < S.rem.length := mem_getD_lt _ _ _ hval_mem
      have hprem : (pruneValue S v val).rem.getD v [] = (S.rem.getD v []).erase val :=
        pruneValue_rem_self S v val hvrange
      by_cases hwipe : curDomain (pruneValue S v val) v = []
      · rw [if_pos hwipe] at heq
        injection heq with h1 h23
        injection h23 with h2 h3
        subst h1 h2 h3
        refine ⟨rfl, RemNodup_prune S v val hrd, fun w hw => pruneValue_rem_ne S v val w hw,
          pruneValue_rem_subset S v val, ⟨[(v, val)], rfl, ?_, ?_⟩, ?_⟩
        · intro h
          cases h
        · intro _
          have := totalRem_prune S v val hval_mem
          omega
        · intro _ hwf
          cases hwf
      · rw [if_neg hwipe] at heq
        have hna2 : NoAssigned (pruneValue S v val) := noAssigned_of_asg_eq S _ rfl hna
        have hrd2 : RemNodup (pruneValue S v val) := RemNodup_prune S v val hrd
        have hsub2 : ∀ x ∈ vs, x ∈ (pruneValue S v val).rem.getD v [] := by
          intro x hx
          rw [hprem]
          refine (List.mem_erase_of_ne ?_).2 (hsub x (List.mem_cons_of_mem val hx))
          intro hxv
          exact (List.nodup_cons.mp hvnd).1 (hxv ▸ hx)
        have hrec := ih (pruneValue S v val) (acc ++ [(v, val)]) S1 ps wiped hna2 hrd2
          (List.nodup_cons.mp hvnd).2 hsub2 heq
        obtain ⟨hasg, hrd1, hremne, hsubv, ⟨nw2, hps, hnw2nil, hnw2lt⟩, hsupcl⟩ := hrec
        have hdec := totalRem_prune S v val hval_mem
        refine ⟨hasg, hrd1, ?_, ?_, ⟨(v, val) :: nw2, ?_, ?_, ?_⟩, ?_⟩
        · intro w hw
          rw [hremne w hw, pruneValue_rem_ne S v val w hw]
        · intro x hx
          exact pruneValue_rem_subset S v val x (hsubv x hx)
        · rw [hps, List.append_assoc]
          rfl
        · intro h
          cases h
        · intro _
          rcases List.eq_nil_or_concat nw2 with h | _
          · have := hnw2nil h
            rw [this]
            omega
          · have hne : nw2 ≠ [] := by
              rcases nw2 with _ | _
              · simp_all
              · simp
            have := hnw2lt hne
            omega
        · intro hscn hwf val2 hval2 hval2mem
          rcases List.mem_cons.mp hval2 with h | h
          · exfalso
            subst h
            have hmem2 : val2 ∈ (pruneValue S v val2).rem.getD v [] := hsubv val2 hval2mem
            rw [hprem] at hmem2
            exact (hrd v).not_mem_erase hmem2
          · exact hsupcl hscn hwf val2 h hval2mem

/-- One unfolding of the worklist loop at a popped pair, phrased through
the result of the value loop. -/
theorem gacLoop_cons (csp : CSPModel) (n : Nat) (v ci : Nat) (rest : List (Nat × Nat))
    (S : Store) (p : List (Nat × Nat)) (S1 : Store) (ps : List (Nat × Nat)) (wiped : Bool)
    (hrev : gacRevise (getCons csp ci) v (curDomain S v) S [] = (S1, ps, wiped)) :
    gacLoop csp (n + 1) ((v, ci) :: rest) S p =
      if wiped then some (false, p ++ ps, S1)
      else gacLoop csp n (if ps = [] then rest else gacEnqueue csp rest v) S1 (p ++ ps) := by
  simp only [gacLoop, hrev]

/-- Fuel sufficiency for the prop_GAC worklist loop on assignment-free
stores: every non-returning iteration either keeps the store and shortens
the worklist or strictly shrinks the total domain mass, both of which are
bounded. -/
theorem gacLoop_term (csp : CSPModel) :
    ∀ (N : Nat) (S : Store), totalRem S ≤ N → NoAssigned S → RemNodup S →
      ∀ (q p : List (Nat × Nat)), ∃ n out, gacLoop csp n q S p = some out := by
  intro N
  induction N with
  | zero =>
    intro S hle hna hrd q
    induction q with
    | nil => intro p; exact ⟨1, (true, p, S), rfl⟩
    | cons hd rest ihq =>
      intro p
      obtain ⟨v, ci⟩ := hd
      rcases hrev : gacRevise (getCons csp ci) v (curDomain S v) S [] with ⟨S1, ps, wiped⟩
      have hspec := gacRevise_spec (getCons csp ci) v (curDomain S v) S [] S1 ps wiped hna hrd
        (by rw [curDomain_eq_rem S v (hna v)]; exact hrd v)
        (by rw [curDomain_eq_rem S v (hna v)]; exact fun x hx => hx) hrev
      obtain ⟨hasg, hrd1, _, _, ⟨nw, hnw, hnil, hlt⟩, _⟩ := hspec
      simp only [List.nil_append] at hnw
      subst hnw
      cases wiped with
      | true =>
        exact ⟨1, (false, p ++ ps, S1), by
          rw [gacLoop_cons csp 0 v ci rest S p S1 ps true hrev]; rfl⟩
      | false =>
        by_cases hps : ps = []
        · have hS1 : S1 = S := hnil hps
          obtain ⟨m, out, hm⟩ := ihq p
          refine ⟨m + 1, out, ?_⟩
          rw [gacLoop_cons csp m v ci rest S p S1 ps false hrev]
          simp only [if_neg Bool.false_ne_true, if_pos hps, hS1, hps, List.append_nil]
          exact hm
        · exfalso
          have := hlt hps
          omega
  | succ N ihN =>
    intro S hle hna hrd q
    induction q with
    | nil => intro p; exact ⟨1, (true, p, S), rfl⟩
    | cons hd rest ihq =>
      intro p
      obtain ⟨v, ci⟩ := hd
      rcases hrev : gacRevise (getCons csp ci) v (curDomain S v) S [] with ⟨S1, ps, wiped⟩
      have hspec := gacRevise_spec (getCons csp ci) v (curDomain S v) S [] S1 ps wiped hna hrd
        (by rw [curDomain_eq_rem S v (hna v)]; exact hrd v)
        (by rw [curDomain_eq_rem S v (hna v)]; exact fun x hx => hx) hrev
      obtain ⟨hasg, hrd1, _, _, ⟨nw, hnw, hnil, hlt⟩, _⟩ := hspec
      simp only [List.nil_append] at hnw
      subst hnw
      cases wiped with
      | true =>
        exact ⟨1, (false, p ++ ps, S1), by
          rw [gacLoop_cons csp 0 v ci rest S p S1 ps true hrev]; rfl⟩
      | false =>
        by_cases hps : ps = []
        · have hS1 : S1 = S := hnil hps
          obtain ⟨m, out, hm⟩ := ihq p
          refine ⟨m + 1, out, ?_⟩
          rw [gacLoop_cons csp m v ci rest S p S1 ps false hrev]
          simp only [if_neg Bool.false_ne_true, if_pos hps, hS1, hps, List.append_nil]
          exact hm
        · obtain ⟨m, out, hm⟩ := ihN S1 (by have := hlt hps; omega)
            (noAssigned_of_asg_eq S S1 hasg hna) hrd1 (gacEnqueue csp rest v) (p ++ ps)
          refine ⟨m + 1, out, ?_⟩
          rw [gacLoop_cons csp m v ci rest S p S1 ps false hrev]
          simp only [if_neg Bool.false_ne_true, if_neg hps]
          exact hm

/-- C8 amended: every prop_GAC call on a store with no assigned variable
and duplicate-free remaining domains terminates. -/
theorem gac_terminates_of_unassigned :
    ∀ (csp : CSPModel) (S : Store), NoAssigned S → RemNodup S →
      ∀ newVar, gacTerminates csp newVar S := by
  intro csp S hna hrd newVar
  obtain ⟨n, out, h⟩ := gacLoop_term csp (totalRem S) S le_rfl hna hrd (gacSeed csp newVar) []
  exact ⟨n, out, h⟩

/-- C8 amended, witness: the termination theorem applied to a concrete
assignment-free model and store. -/
theorem gac_terminates_of_unassigned_witness :
    NoAssigned enqStore ∧ RemNodup enqStore ∧ gacTerminates enqCsp none enqStore := by
  have hna : NoAssigned enqStore := by
    intro v
    match v with
    | 0 => rfl
    | 1 => rfl
    | v + 2 => rfl
  have hrd : RemNodup enqStore := by
    intro v
    match v with
    | 0 => decide
    | 1 => decide
    | v + 2 => exact List.nodup_nil
  exact ⟨hna, hrd, gac_terminates_of_unassigned enqCsp enqStore hna hrd none⟩

/-- Membership after the inner enqueue fold over one constraint's scope:
exactly the old entries plus the pairs (w, ci) for scope variables w
other than v. -/
theorem foldl_push_mem (v ci : Nat) :
    ∀ (L : List Nat) (q : List (Nat × Nat)) (x : Nat × Nat),
      (x ∈ L.foldl
        (fun q2 w => if w = v then q2 else if (w, ci) ∈ q2 then q2 else q2 ++ [(w, ci)]) q) ↔
      (x ∈ q ∨ ∃ w ∈ L, x = (w, ci) ∧ w ≠ v) := by
  intro L
  induction L with
  | nil => simp
  | cons w ws ih =>
    intro q x
    simp only [List.foldl_cons]
    by_cases hw : w = v
    · rw [if_pos hw, ih]
      subst hw
      constructor
      · rintro (h | ⟨w2, h1, h2, h3⟩)
        · exact Or.inl h
        · exact Or.inr ⟨w2, List.mem_cons_of_mem _ h1, h2, h3⟩
      · rintro (h | ⟨w2, h1, h2, h3⟩)
        · exact Or.inl h
        · rcases List.mem_cons.mp h1 with h4 | h4
          · exact absurd h4 h3
          · exact Or.inr ⟨w2, h4, h2, h3⟩
    · rw [if_neg hw]
      by_cases hmem : (w, ci) ∈ q
      · rw [if_pos hmem, ih]
        constructor
        · rintro (h | ⟨w2, h1, h2, h3⟩)
          · exact Or.inl h
          · exact Or.inr ⟨w2, List.mem_cons_of_mem _ h1, h2, h3⟩
        · rintro (h | ⟨w2, h1, h2, h3⟩)
          · exact Or.inl h
          · rcases List.mem_cons.mp h1 with h4 | h4
            · refine Or.inl ?_
              rw [h2, h4]
              exact hmem
            · exact Or.inr ⟨w2, h4, h2, h3⟩
      · rw [if_neg hmem, ih]
        constructor
        · rintro (h | ⟨w2, h1, h2, h3⟩)
          · rcases List.mem_append.mp h with h4 | h4
            · exact Or.inl h4
            · refine Or.inr ⟨w, List.mem_cons_self _ _, ?_, hw⟩
              simpa using h4
          · exact Or.inr ⟨w2, List.mem_cons_of_mem _ h1, h2, h3⟩
        · rintro (h | ⟨w2, h1, h2, h3⟩)
          · exact Or.inl (List.mem_append_left _ h)
          · rcases List.mem_cons.mp h1 with h4 | h4
            · refine Or.inl (List.mem_append_right _ ?_)
              simp [h2, h4]
            · exact Or.inr ⟨w2, h4, h2, h3⟩

/-- The inner enqueue fold preserves duplicate-freeness of the worklist. -/
theorem foldl_push_nodup (v ci : Nat) :
    ∀ (L : List Nat) (q : List (Nat × Nat)), q.Nodup →
      (L.foldl
        (fun q2 w => if w = v then q2 else if (w, ci) ∈ q2 then q2 else q2 ++ [(w, ci)]) q).Nodup := by
  intro L
  induction L with
  | nil => exact fun q h => h
  | cons w ws ih =>
    intro q hq
    simp only [List.foldl_cons]
    by_cases hw : w = v
    · rw [if_pos hw]
      exact ih q hq
    · rw [if_neg hw]
      by_cases hmem : (w, ci) ∈ q
      · rw [if_pos hmem]
        exact ih q hq
      · rw [if_neg hmem]
        refine ih _ ?_
        simp [List.nodup_append, hq, hmem]

/-- Membership in the constraint list referencing a variable. -/
theorem consWithVar_mem (csp : CSPModel) (v ci : Nat) :
    ci ∈ consWithVar csp v ↔ ci < csp.cons.length ∧ v ∈ (getCons csp ci).scope := by
  simp [consWithVar, List.mem_filter, List.mem_range]

/-- Worklist membership after the code's re-enqueue step: the pending
pairs plus (w, c) for EVERY constraint c referencing the pruned variable
(the popped constraint included) and every scope variable w other than
it. -/
theorem gacEnqueue_mem (csp : CSPModel) (v : Nat) :
    ∀ (q0 : List (Nat × Nat)) (x : Nat × Nat),
      x ∈ gacEnqueue csp q0 v ↔
      (x ∈ q0 ∨ ∃ ci ∈ consWithVar csp v, ∃ w ∈ (getCons csp ci).scope, x = (w, ci) ∧ w ≠ v) := by
  have main : ∀ (cis : List Nat) (q : List (Nat × Nat)) (x : Nat × Nat),
      (x ∈ cis.foldl
        (fun q ci =>
          (getCons csp ci).scope.foldl
            (fun q2 w => if w = v then q2 else if (w, ci) ∈ q2 then q2 else q2 ++ [(w, ci)]) q)
        q) ↔
      (x ∈ q ∨ ∃ ci ∈ cis, ∃ w ∈ (getCons csp ci).scope, x = (w, ci) ∧ w ≠ v) := by
    intro cis
    induction cis with
    | nil => simp
    | cons ci cis ih =>
      intro q x
      simp only [List.foldl_cons]
      rw [ih, foldl_push_mem]
      constructor
      · rintro ((h | ⟨w, h1, h2, h3⟩) | ⟨ci2, h1, w, h2, h3, h4⟩)
        · exact Or.inl h
        · exact Or.inr ⟨ci, List.mem_cons_self _ _, w, h1, h2, h3⟩
        · exact Or.inr ⟨ci2, List.mem_cons_of_mem _ h1, w, h2, h3, h4⟩
      · rintro (h | ⟨ci2, h1, w, h2, h3, h4⟩)
        · exact Or.inl (Or.inl h)
        · rcases List.mem_cons.mp h1 with h5 | h5
          · subst h5
            exact Or.inl (Or.inr ⟨w, h2, h3, h4⟩)
          · exact Or.inr ⟨ci2, h5, w, h2, h3, h4⟩
  intro q0 x
  exact main (consWithVar csp v) q0 x

/-- The code's re-enqueue step never introduces a duplicate worklist
entry. -/
theorem gacEnqueue_nodup (csp : CSPModel) (v : Nat) :
    ∀ (q0 : List (Nat × Nat)), q0.Nodup → (gacEnqueue csp q0 v).Nodup := by
  have main : ∀ (cis : List Nat) (q : List (Nat × Nat)), q.Nodup →
      (cis.foldl
        (fun q ci =>
          (getCons csp ci).scope.foldl
            (fun q2 w => if w = v then q2 else if (w, ci) ∈ q2 then q2 else q2 ++ [(w, ci)]) q)
        q).Nodup := by
    intro cis
    induction cis with
    | nil => exact fun q h => h
    | cons ci cis ih =>
      intro q hq
      simp only [List.foldl_cons]
      exact ih _ (foldl_push_nodup v ci _ q hq)
  exact main (consWithVar csp v)

/-- Membership in the initial worklist. -/
theorem gacSeed_mem (csp : CSPModel) (newVar : Option Nat) (x : Nat × Nat) :
    x ∈ gacSeed csp newVar ↔
      ∃ ci ∈ (match newVar with
        | some v => consWithVar csp v
        | none => List.range csp.cons.length),
        ∃ w ∈ (getCons csp ci).scope, x = (w, ci) := by
  have main : ∀ (cis : List Nat),
      (x ∈ cis.foldr (fun ci acc => ((getCons csp ci).scope.map fun w => (w, ci)) ++ acc) []) ↔
      ∃ ci ∈ cis, ∃ w ∈ (getCons csp ci).scope, x = (w, ci) := by
    intro cis
    induction cis with
    | nil => simp
    | cons ci cis ih =>
      simp only [List.foldr_cons, List.mem_append, List.mem_map, ih, List.mem_cons]
      constructor
      · rintro (⟨w, h1, h2⟩ | ⟨ci2, h1, w, h2, h3⟩)
        · exact ⟨ci, Or.inl rfl, w, h1, h2.symm⟩
        · exact ⟨ci2, Or.inr h1, w, h2, h3⟩
      · rintro ⟨ci2, h1 | h1, w, h2, h3⟩
        · subst h1
          exact Or.inl ⟨w, h2, h3.symm⟩
        · exact Or.inr ⟨ci2, h1, w, h2, h3⟩
  exact main _

/-- Every pair of the full initial worklist names an existing constraint
and one of its scope variables, and conversely. -/
theorem gacSeed_none_mem (csp : CSPModel) (v ci : Nat) :
    (v, ci) ∈ gacSeed csp none ↔ ci < csp.cons.length ∧ v ∈ (getCons csp ci).scope := by
  rw [gacSeed_mem]
  constructor
  · rintro ⟨ci2, h1, w, h2, h3⟩
    injection h3 with h4 h5
    subst h4 h5
    exact ⟨List.mem_range.mp h1, h2⟩
  · rintro ⟨h1, h2⟩
    exact ⟨ci, List.mem_range.mpr h1, v, h2, rfl⟩

/-- The initial worklist is legal for any assignment event. -/
theorem gacSeed_QOK (csp : CSPModel) (newVar : Option Nat) : QOK csp (gacSeed csp newVar) := by
  intro pr hpr
  rw [gacSeed_mem] at hpr
  obtain ⟨ci, h1, w, h2, h3⟩ := hpr
  subst h3
  cases newVar with
  | none => exact ⟨List.mem_range.mp h1, h2⟩
  | some v =>
    have := (consWithVar_mem csp v ci).mp h1
    exact ⟨this.1, h2⟩

/-- A value loop over fully supported values neither prunes nor changes
the store. -/
theorem gacRevise_clean (c : Cons) (v : Nat) :
    ∀ (vals : List Nat) (S : Store) (acc : List (Nat × Nat)),
      (∀ val ∈ vals, hasSupport S c v val = true) →
      gacRevise c v vals S acc = (S, acc, false) := by
  intro vals
  induction vals with
  | nil => intro S acc _; rfl
  | cons val vs ih =>
    intro S acc h
    simp only [gacRevise]
    rw [if_pos (h val (List.mem_cons_self _ _))]
    exact ih S acc fun x hx => h x (List.mem_cons_of_mem _ hx)

/-- On an arc-consistent store the worklist loop drains without pruning:
one unit of fuel per pending pair plus one suffices and the store is
returned unchanged with no recorded prunings. -/
theorem gacLoop_clean (csp : CSPModel) (S : Store) (hac : achievedAC csp S) :
    ∀ (q : List (Nat × Nat)), QOK csp q →
      ∀ p, gacLoop csp (q.length + 1) q S p = some (true, p, S) := by
  intro q
  induction q with
  | nil => intro _ p; rfl
  | cons hd rest ih =>
    intro hqok p
    obtain ⟨v, ci⟩ := hd
    have hpair := hqok (v, ci) (List.mem_cons_self _ _)
    have hclean : gacRevise (getCons csp ci) v (curDomain S v) S [] = (S, [], false) :=
      gacRevise_clean (getCons csp ci) v (curDomain S v) S []
        fun val hval => hac ci hpair.1 v hpair.2 val hval
    have hstep := gacLoop_cons csp (rest.length + 1) v ci rest S p S [] false hclean
    rw [show ((v, ci) :: rest).length + 1 = (rest.length + 1) + 1 from rfl, hstep]
    simp only [if_neg Bool.false_ne_true, if_pos rfl, List.append_nil]
    exact ih (fun pr hpr => hqok pr (List.mem_cons_of_mem _ hpr)) p

/-- When the worklist loop returns success on an assignment-free store
whose pending pairs cover every possibly-inconsistent pair, the final
store is arc consistent for the whole model. -/
theorem gacLoop_true_AC (csp : CSPModel) (hsn : ScopesNodup csp) :
    ∀ (n : Nat) (q : List (Nat × Nat)) (S : Store) (p p2 : List (Nat × Nat)) (S2 : Store),
      NoAssigned S → RemNodup S → gacInv csp q S →
      gacLoop csp n q S p = some (true, p2, S2) → achievedAC csp S2 := by
  intro n
  induction n with
  | zero =>
    intro q S p p2 S2 _ _ _ h
    cases h
  | succ n ih =>
    intro q S p p2 S2 hna hrd hinv heq
    cases q with
    | nil =>
      simp only [gacLoop] at heq
      injection heq with h
      injection h with hb h
      injection h with hp hS
      subst hS
      intro ci hci v hv val hval
      exact hinv ci hci v hv (List.not_mem_nil _) val hval
    | cons hd rest =>
      obtain ⟨v, ci⟩ := hd
      rcases hrev : gacRevise (getCons csp ci) v (curDomain S v) S [] with ⟨S1, ps, wiped⟩
      have hspec := gacRevise_spec (getCons csp ci) v (curDomain S v) S [] S1 ps wiped hna hrd
        (by rw [curDomain_eq_rem S v (hna v)]; exact hrd v)
        (by rw [curDomain_eq_rem S v (hna v)]; exact fun x hx => hx) hrev
      obtain ⟨hasg, hrd1, hremne, hsubv, ⟨nw, hnw, hnil, hlt⟩, hsupcl⟩ := hspec
      simp only [List.nil_append] at hnw
      subst hnw
      rw [gacLoop_cons csp n v ci rest S p S1 ps wiped hrev] at heq
      have hna1 : NoAssigned S1 := noAssigned_of_asg_eq S S1 hasg hna
      cases wiped with
      | true =>
        rw [if_pos rfl] at heq
        injection heq with h
        injection h with hb h
        cases hb
      | false =>
        rw [if_neg Bool.false_ne_true] at heq
        by_cases hps : ps = []
        · rw [if_pos hps] at heq
          have hS1 : S1 = S := hnil hps
          subst hS1
          refine ih rest S1 (p ++ ps) p2 S2 hna hrd ?_ heq
          intro ci2 hci2 v2 hv2 hnotin val hval
          by_cases hpaireq : (v2, ci2) = (v, ci)
          · injection hpaireq with hv2eq hci2eq
            subst hv2eq hci2eq
            exact hsupcl (hsn ci2) rfl val hval
              (by rw [← curDomain_eq_rem S1 v2 (hna v2)]; exact hval)
          · refine hinv ci2 hci2 v2 hv2 ?_ val hval
            intro hmem
            rcases List.mem_cons.mp hmem with h | h
            · exact hpaireq h
            · exact hnotin h
        · rw [if_neg hps] at heq
          refine ih (gacEnqueue csp rest v) S1 (p ++ ps) p2 S2 hna1 hrd1 ?_ heq
          intro ci2 hci2 v2 hv2 hnotin val hval
          by_cases hveq : v2 = v
          · subst hveq
            have hvalrem : val ∈ S1.rem.getD v2 [] := by
              rw [← curDomain_eq_rem S1 v2 (hna1 v2)]
              exact hval
            by_cases hcieq : ci2 = ci
            · subst hcieq
              refine hsupcl (hsn ci2) rfl val ?_ hvalrem
              rw [curDomain_eq_rem S v2 (hna v2)]
              exact hsubv val hvalrem
            · have hnotq : (v2, ci2) ∉ (v2, ci) :: rest := by
                intro hmem
                rcases List.mem_cons.mp hmem with h | h
                · injection h with h1 h2
                  exact hcieq h2
                · exact hnotin ((gacEnqueue_mem csp v2 rest (v2, ci2)).mpr (Or.inl h))
              have hS := hinv ci2 hci2 v2 hv2 hnotq val
                (by rw [curDomain_eq_rem S v2 (hna v2)]; exact hsubv val hvalrem)
              exact hasSupport_shrink S S1 (getCons csp ci2) v2 val (hsn ci2) hasg hremne hval hS
          · by_cases hscope : v ∈ (getCons csp ci2).scope
            · exfalso
              refine hnotin ((gacEnqueue_mem csp v rest (v2, ci2)).mpr (Or.inr ?_))
              exact ⟨ci2, (consWithVar_mem csp v ci2).mpr ⟨hci2, hscope⟩, v2, hv2, rfl, hveq⟩
            · have hcd : ∀ w ∈ (getCons csp ci2).scope, curDomain S1 w = curDomain S w := by
                intro w hw
                have hwv : w ≠ v := fun h => hscope (h ▸ hw)
                exact curDomain_congr S S1 w hasg (hremne w hwv)
              have hvalS : val ∈ curDomain S v2 := by
                rw [← hcd v2 hv2]
                exact hval
              have hnotq : (v2, ci2) ∉ (v, ci) :: rest := by
                intro hmem
                rcases List.mem_cons.mp hmem with h | h
                · injection h with h1 h2
                  exact hveq h1
                · exact hnotin ((gacEnqueue_mem csp v rest (v2, ci2)).mpr (Or.inl h))
              have hS := hinv ci2 hci2 v2 hv2 hnotq val hvalS
              rw [hasSupport_congr S S1 (getCons csp ci2) v2 val hcd]
              exact hS

/-- C3 amended: when the full (no newly-assigned variable) prop_GAC call
on an assignment-free, well-formed store succeeds, re-invoking prop_GAC
with no newly-assigned variable on the resulting store succeeds with an
empty prune list and leaves the store unchanged. -/
theorem gac_full_success_idempotent :
    ∀ (csp : CSPModel) (S : Store) (n : Nat) (p2 : List (Nat × Nat)) (S2 : Store),
      ScopesNodup csp → NoAssigned S → RemNodup S →
      prop_GAC csp none S n = some (true, p2, S2) →
      prop_GAC csp none S2 ((gacSeed csp none).length + 1) = some (true, [], S2) := by
  intro csp S n p2 S2 hsn hna hrd heq
  have hinv : gacInv csp (gacSeed csp none) S := by
    intro ci hci v hv hnot
    exact absurd ((gacSeed_none_mem csp v ci).mpr ⟨hci, hv⟩) hnot
  have hac : achievedAC csp S2 :=
    gacLoop_true_AC csp hsn n (gacSeed csp none) S [] p2 S2 hna hrd hinv heq
  exact gacLoop_clean csp S2 hac (gacSeed csp none) (gacSeed_QOK csp none) []

/-- C3 amended, witness: a concrete assignment-free model on which the
full prop_GAC call succeeds (pruning (1, 2)), after which the
re-invocation returns success with an empty prune list. -/
theorem gac_full_success_idempotent_witness :
    ScopesNodup enqCsp ∧ NoAssigned enqStore ∧ RemNodup enqStore ∧
    prop_GAC enqCsp none enqStore 50 =
      some (true, [(1, 2)], ⟨[[1, 2], [1]], [none, none]⟩) ∧
    prop_GAC enqCsp none ⟨[[1, 2], [1]], [none, none]⟩ ((gacSeed enqCsp none).length + 1) =
      some (true, [], ⟨[[1, 2], [1]], [none, none]⟩) := by
  have hsn : ScopesNodup enqCsp := by
    intro ci
    match ci with
    | 0 => decide
    | ci + 1 => exact List.nodup_nil
  have hna : NoAssigned enqStore := by
    intro v
    match v with
    | 0 => rfl
    | 1 => rfl
    | v + 2 => rfl
  have hrd : RemNodup enqStore := by
    intro v
    match v with
    | 0 => decide
    | 1 => decide
    | v + 2 => exact List.nodup_nil
  exact ⟨hsn, hna, hrd, rfl,
    gac_full_success_idempotent enqCsp enqStore 50 [(1, 2)] _ hsn hna hrd rfl⟩

/-- C4 amended: the re-enqueue step appends exactly the pairs (w, c) for
every constraint c referencing the pruned variable (including the one
just processed) and every scope variable w other than it, skipping pairs
already pending, and it preserves the worklist's freedom from
duplicates. -/
theorem gacEnqueue_complete_nodup :
    ∀ (csp : CSPModel) (q0 : List (Nat × Nat)) (v : Nat),
      (∀ x, x ∈ gacEnqueue csp q0 v ↔
        (x ∈ q0 ∨
          ∃ ci ∈ consWithVar csp v, ∃ w ∈ (getCons csp ci).scope, x = (w, ci) ∧ w ≠ v)) ∧
      (q0.Nodup → (gacEnqueue csp q0 v).Nodup) :=
  fun csp q0 v => ⟨gacEnqueue_mem csp v q0, gacEnqueue_nodup csp v q0⟩

/-- C4 amended, witness: the re-enqueue characterisation applied at the
concrete state of the counterexample run. -/
theorem gacEnqueue_complete_nodup_witness :
    ([] : List (Nat × Nat)).Nodup ∧
    (gacEnqueue enqCsp [] 1).Nodup ∧
    ((0, 0) ∈ gacEnqueue enqCsp [] 1 ↔
      ((0, 0) ∈ ([] : List (Nat × Nat)) ∨
        ∃ ci ∈ consWithVar enqCsp 1, ∃ w ∈ (getCons enqCsp ci).scope,
          ((0 : Nat), (0 : Nat)) = (w, ci) ∧ w ≠ 1)) :=
  ⟨List.nodup_nil,
   (gacEnqueue_complete_nodup enqCsp [] 1).2 List.nodup_nil,
   (gacEnqueue_complete_nodup enqCsp [] 1).1 (0, 0)⟩

/-- The plain-backtracking loop returns an empty prune list in every
case. -/
theorem btLoop_snd (csp : CSPModel) (S : Store) :
    ∀ cis, (btLoop csp S cis).2 = [] := by
  intro cis
  induction cis with
  | nil => rfl
  | cons ci rest ih =>
    simp only [btLoop]
    by_cases h0 : nUnasgn S (getCons csp ci) = 0
    · rw [if_pos h0]
      by_cases hchk : consCheck (getCons csp ci) (scopeVals S (getCons csp ci).scope) = true
      · rw [if_pos hchk]
        exact ih
      · rw [if_neg hchk]
    · rw [if_neg h0]
      exact ih

/-- The accumulator scan that leaves unassignedVar holds only variables
whose assignment slot is empty. -/
theorem lastUnassigned_foldl (S : Store) :
    ∀ (l : List (Nat × Nat)) (acc : Option (Nat × Nat)),
      (∀ x, acc = some x → S.asg.getD x.1 none = none) →
      ∀ x,
        (l.foldl
          (fun acc iw => if (S.asg.getD iw.2 none).isNone then some (iw.2, iw.1) else acc)
          acc) = some x →
        S.asg.getD x.1 none = none := by
  intro l
  induction l with
  | nil => exact fun acc h x hx => h x hx
  | cons iw l ih =>
    intro acc hacc x
    simp only [List.foldl_cons]
    by_cases hiw : (S.asg.getD iw.2 none).isNone = true
    · rw [if_pos hiw]
      refine ih _ ?_ x
      intro y hy
      injection hy with hy
      rw [← hy]
      exact Option.isNone_iff_eq_none.mp hiw
    · rw [if_neg hiw]
      exact ih acc hacc x

/-- A found unassigned variable is indeed unassigned. -/
theorem lastUnassigned_unassigned (S : Store) (scope : List Nat) (uv uidx : Nat)
    (h : lastUnassigned S scope = some (uv, uidx)) : S.asg.getD uv none = none :=
  lastUnassigned_foldl S scope.enum none (fun _ hx => Option.noConfusion hx) (uv, uidx) h

/-- The forward-checking value loop does not touch assignments. -/
theorem fcRevise_asg (c : Cons) (uv uidx : Nat) (vals : List Nat) :
    ∀ (vs : List Nat) (S : Store) (p : List (Nat × Nat)),
      (fcRevise c uv uidx vals vs S p).1.asg = S.asg := by
  intro vs
  induction vs with
  | nil => intro S p; rfl
  | cons val vs ih =>
    intro S p
    simp only [fcRevise]
    by_cases hchk : consCheck c (vals.set uidx val) = true
    · rw [if_pos hchk]
      exact ih S p
    · rw [if_neg hchk]
      exact (ih _ _).trans rfl

/-- Every pair the forward-checking value loop appends names the single
unassigned variable. -/
theorem fcRevise_prunes_vars (c : Cons) (uv uidx : Nat) (vals : List Nat)
    (Q : Nat → Prop) :
    ∀ (vs : List Nat) (S : Store) (p : List (Nat × Nat)),
      (∀ pr ∈ p, Q pr.1) → Q uv →
      ∀ pr ∈ (fcRevise c uv uidx vals vs S p).2, Q pr.1 := by
  intro vs
  induction vs with
  | nil => exact fun S p hp _ pr hpr => hp pr hpr
  | cons val vs ih =>
    intro S p hp huv pr
    simp only [fcRevise]
    by_cases hchk : consCheck c (vals.set uidx val) = true
    · rw [if_pos hchk]
      exact ih S p hp huv pr
    · rw [if_neg hchk]
      refine ih _ _ ?_ huv pr
      intro pr2 hpr2
      rcases List.mem_append.mp hpr2 with h | h
      · exact hp pr2 h
      · rw [List.mem_singleton.mp h]
        exact huv

/-- One unfolding of the forward-checking constraint loop at an examined
constraint, phrased through the value-loop result. -/
theorem fcLoop_cons (csp : CSPModel) (ci : Nat) (rest : List Nat) (S : Store)
    (p : List (Nat × Nat)) (S1 : Store) (p1 : List (Nat × Nat)) (uv uidx : Nat)
    (h1 : nUnasgn S (getCons csp ci) = 1)
    (hlu : lastUnassigned S (getCons csp ci).scope = some (uv, uidx))
    (hr : fcRevise (getCons csp ci) uv uidx (scopeVals S (getCons csp ci).scope)
      (curDomain S uv) S p = (S1, p1)) :
    fcLoop csp (ci :: rest) S p =
      if curDomain S1 uv = [] then (false, p1, S1) else fcLoop csp rest S1 p1 := by
  simp only [fcLoop, if_pos h1, hlu, hr]

/-- The forward-checking loop skips constraints whose unassigned-variable
count is not one. -/
theorem fcLoop_cons_skip (csp : CSPModel) (ci : Nat) (rest : List Nat) (S : Store)
    (p : List (Nat × Nat)) (h1 : ¬ nUnasgn S (getCons csp ci) = 1) :
    fcLoop csp (ci :: rest) S p = fcLoop csp rest S p := by
  simp only [fcLoop, if_neg h1]

/-- Degenerate unfolding when the scan finds no unassigned variable
(unreachable when the unassigned count is one, kept for totality). -/
theorem fcLoop_cons_nolu (csp : CSPModel) (ci : Nat) (rest : List Nat) (S : Store)
    (p : List (Nat × Nat)) (h1 : nUnasgn S (getCons csp ci) = 1)
    (hlu : lastUnassigned S (getCons csp ci).scope = none) :
    fcLoop csp (ci :: rest) S p = fcLoop csp rest S p := by
  simp only [fcLoop, if_pos h1, hlu]

/-- Every pair the forward-checking constraint loop ever reports names a
variable that is unassigned (assignments never change during the call). -/
theorem fcLoop_prunes_unassigned (csp : CSPModel) (A : List (Option Nat)) :
    ∀ (cis : List Nat) (S : Store) (p : List (Nat × Nat)), S.asg = A →
      (∀ pr ∈ p, A.getD pr.1 none = none) →
      ∀ pr ∈ (fcLoop csp cis S p).2.1, A.getD pr.1 none = none := by
  intro cis
  induction cis with
  | nil => exact fun S p _ hp pr hpr => hp pr hpr
  | cons ci rest ih =>
    intro S p hSA hp
    by_cases h1 : nUnasgn S (getCons csp ci) = 1
    · rcases hlu : lastUnassigned S (getCons csp ci).scope with _ | ⟨uv, uidx⟩
      · rw [fcLoop_cons_nolu csp ci rest S p h1 hlu]
        exact ih S p hSA hp
      · have huv : A.getD uv none = none := by
          rw [← hSA]
          exact lastUnassigned_unassigned S (getCons csp ci).scope uv uidx hlu
        rcases hr : fcRevise (getCons csp ci) uv uidx (scopeVals S (getCons csp ci).scope)
            (curDomain S uv) S p with ⟨S1, p1⟩
        rw [fcLoop_cons csp ci rest S p S1 p1 uv uidx h1 hlu hr]
        have hp1 : ∀ pr ∈ p1, A.getD pr.1 none = none := by
          intro pr hpr
          refine fcRevise_prunes_vars (getCons csp ci) uv uidx
            (scopeVals S (getCons csp ci).scope)
            (fun w => A.getD w none = none) (curDomain S uv) S p hp huv pr ?_
          rw [hr]
          exact hpr
        have hS1A : S1.asg = A := by
          have := fcRevise_asg (getCons csp ci) uv uidx
            (scopeVals S (getCons csp ci).scope) (curDomain S uv) S p
          rw [hr] at this
          exact this.trans hSA
        by_cases hwipe : curDomain S1 uv = []
        · rw [if_pos hwipe]
          exact hp1
        · rw [if_neg hwipe]
          exact ih S1 p1 hS1A hp1
    · rw [fcLoop_cons_skip csp ci rest S p h1]
      exact ih S p hSA hp

/-- C2 amended: prop_BT never prunes at all, and every pair prop_FC
reports names an unassigned variable, so neither ever prunes the value an
assigned variable holds; prop_GAC, by contrast, can (see the
counterexample run). -/
theorem bt_fc_never_prune_assigned :
    ∀ (csp : CSPModel) (newVar : Option Nat) (S : Store),
      (prop_BT csp newVar S).2 = [] ∧
      (∀ pr ∈ (prop_FC csp newVar S).2.1, S.asg.getD pr.1 none = none) := by
  intro csp newVar S
  constructor
  · cases newVar with
    | none => rfl
    | some v => exact btLoop_snd csp S (consWithVar csp v)
  · cases newVar with
    | none =>
      exact fcLoop_prunes_unassigned csp S.asg (List.range csp.cons.length) S [] rfl
        (fun pr hpr => absurd hpr (List.not_mem_nil pr))
    | some v =>
      exact fcLoop_prunes_unassigned csp S.asg (consWithVar csp v) S [] rfl
        (fun pr hpr => absurd hpr (List.not_mem_nil pr))

/-- Replaying an appended prune list factors through the first part. -/
theorem applyPrunes_append (S : Store) (a b : List (Nat × Nat)) :
    applyPrunes S (a ++ b) = applyPrunes (applyPrunes S a) b :=
  List.foldl_append _ _ _ _

/-- Replaying prunes keeps assignments. -/
theorem applyPrunes_asg : ∀ (l : List (Nat × Nat)) (S : Store),
    (applyPrunes S l).asg = S.asg := by
  intro l
  induction l with
  | nil => intro S; rfl
  | cons pr l ih => intro S; exact (ih _).trans rfl

/-- Replaying prunes that all name one variable leaves every other
variable's remaining values. -/
theorem applyPrunes_rem_ne (uv : Nat) : ∀ (l : List (Nat × Nat)) (S : Store) (w : Nat),
    (∀ pr ∈ l, pr.1 = uv) → w ≠ uv →
    (applyPrunes S l).rem.getD w [] = S.rem.getD w [] := by
  intro l
  induction l with
  | nil => intro S w _ _; rfl
  | cons pr l ih =>
    intro S w hvars hw
    have hpr : pr.1 = uv := hvars pr (List.mem_cons_self _ _)
    have : (applyPrunes (pruneValue S pr.1 pr.2) l).rem.getD w [] =
        (pruneValue S pr.1 pr.2).rem.getD w [] :=
      ih _ w (fun pr2 hpr2 => hvars pr2 (List.mem_cons_of_mem _ hpr2)) hw
    refine this.trans ?_
    exact pruneValue_rem_ne S pr.1 pr.2 w (by rw [hpr]; exact hw)

/-- The forward-checking value loop appends exactly the prunings it
performs: the final store is the initial store with the new pairs
replayed, and every new pair names the unassigned variable. -/
theorem fcRevise_log (c : Cons) (uv uidx : Nat) (vals : List Nat) :
    ∀ (vs : List Nat) (S : Store) (p : List (Nat × Nat)),
      ∃ nw, (fcRevise c uv uidx vals vs S p).2 = p ++ nw ∧
        (fcRevise c uv uidx vals vs S p).1 = applyPrunes S nw ∧
        ∀ pr ∈ nw, pr.1 = uv := by
  intro vs
  induction vs with
  | nil =>
    intro S p
    exact ⟨[], by simp [fcRevise], rfl, fun pr hpr => absurd hpr (List.not_mem_nil pr)⟩
  | cons val vs ih =>
    intro S p
    simp only [fcRevise]
    by_cases hchk : consCheck c (vals.set uidx val) = true
    · rw [if_pos hchk]
      exact ih S p
    · rw [if_neg hchk]
      obtain ⟨nw, h1, h2, h3⟩ := ih (pruneValue S uv val) (p ++ [(uv, val)])
      refine ⟨(uv, val) :: nw, ?_, ?_, ?_⟩
      · rw [h1, List.append_assoc]
        rfl
      · exact h2
      · intro pr hpr
        rcases List.mem_cons.mp hpr with h | h
        · rw [h]
        · exact h3 pr h

/-- Elements paired by enumeration belong to the underlying list. -/
theorem enumFrom_snd_mem {α : Type} :
    ∀ (l : List α) (s : Nat) (p : Nat × α), p ∈ l.enumFrom s → p.2 ∈ l := by
  intro l
  induction l with
  | nil => intro s p hp; cases hp
  | cons a as ih =>
    intro s p hp
    rcases List.mem_cons.mp hp with h | h
    · rw [h]
      exact List.mem_cons_self _ _
    · exact List.mem_cons_of_mem _ (ih (s + 1) p h)

/-- The scan for the unassigned variable returns a scope variable. -/
theorem lastUnassigned_foldl_mem (S : Store) (scope : List Nat) :
    ∀ (l : List (Nat × Nat)) (acc : Option (Nat × Nat)),
      (∀ iw ∈ l, iw.2 ∈ scope) →
      (∀ x, acc = some x → x.1 ∈ scope) →
      ∀ x,
        (l.foldl
          (fun acc iw => if (S.asg.getD iw.2 none).isNone then some (iw.2, iw.1) else acc)
          acc) = some x →
        x.1 ∈ scope := by
  intro l
  induction l with
  | nil => exact fun acc _ hacc x hx => hacc x hx
  | cons iw l ih =>
    intro acc hl hacc x
    simp only [List.foldl_cons]
    by_cases hiw : (S.asg.getD iw.2 none).isNone = true
    · rw [if_pos hiw]
      refine ih _ (fun iw2 hiw2 => hl iw2 (List.mem_cons_of_mem _ hiw2)) ?_ x
      intro y hy
      injection hy with hy
      rw [← hy]
      exact hl iw (List.mem_cons_self _ _)
    · rw [if_neg hiw]
      exact ih acc (fun iw2 hiw2 => hl iw2 (List.mem_cons_of_mem _ hiw2)) hacc x

/-- The found unassigned variable belongs to the scope. -/
theorem lastUnassigned_mem (S : Store) (scope : List Nat) (uv uidx : Nat)
    (h : lastUnassigned S scope = some (uv, uidx)) : uv ∈ scope :=
  lastUnassigned_foldl_mem S scope scope.enum none
    (fun iw hiw => enumFrom_snd_mem scope 0 iw hiw)
    (fun _ hx => Option.noConfusion hx) (uv, uidx) h

/-- Failure analysis of the forward-checking constraint loop: on a store
whose relevant unassigned variables all have non-empty current domains, a
failure return reports exactly the prunings performed, and the last of
them is the one that emptied its variable's current domain. -/
theorem fcLoop_false_spec (csp : CSPModel) :
    ∀ (cis : List Nat) (S : Store) (p p2 : List (Nat × Nat)) (S2 : Store),
      (∀ ci ∈ cis, ci < csp.cons.length) →
      (∀ ci, ci < csp.cons.length → ∀ w ∈ (getCons csp ci).scope,
        S.asg.getD w none = none → curDomain S w ≠ []) →
      fcLoop csp cis S p = (false, p2, S2) →
      ∃ nw, p2 = p ++ nw ∧ S2 = applyPrunes S nw ∧
        ∃ q pr, nw = q ++ [pr] ∧ curDomain S2 pr.1 = [] := by
  intro cis
  induction cis with
  | nil =>
    intro S p p2 S2 _ _ heq
    simp only [fcLoop] at heq
    injection heq with hb h
    cases hb
  | cons ci rest ih =>
    intro S p p2 S2 hlen hH heq
    by_cases h1 : nUnasgn S (getCons csp ci) = 1
    · rcases hlu : lastUnassigned S (getCons csp ci).scope with _ | ⟨uv, uidx⟩
      · rw [fcLoop_cons_nolu csp ci rest S p h1 hlu] at heq
        exact ih S p p2 S2 (fun ci2 hci2 => hlen ci2 (List.mem_cons_of_mem _ hci2)) hH heq
      · rcases hr : fcRevise (getCons csp ci) uv uidx (scopeVals S (getCons csp ci).scope)
            (curDomain S uv) S p with ⟨S1, p1⟩
        rw [fcLoop_cons csp ci rest S p S1 p1 uv uidx h1 hlu hr] at heq
        have hlog := fcRevise_log (getCons csp ci) uv uidx
          (scopeVals S (getCons csp ci).scope) (curDomain S uv) S p
        rw [hr] at hlog
        obtain ⟨nw, hp1, hS1, hnwvars⟩ := hlog
        dsimp only at hp1 hS1
        have huv_unasg : S.asg.getD uv none = none :=
          lastUnassigned_unassigned S (getCons csp ci).scope uv uidx hlu
        have huvmem : uv ∈ (getCons csp ci).scope :=
          lastUnassigned_mem S (getCons csp ci).scope uv uidx hlu
        have hci_len : ci < csp.cons.length := hlen ci (List.mem_cons_self _ _)
        by_cases hwipe : curDomain S1 uv = []
        · rw [if_pos hwipe] at heq
          injection heq with hb h
          injection h with hp2eq hS2eq
          subst hp2eq hS2eq
          refine ⟨nw, hp1, hS1, ?_⟩
          rcases List.eq_nil_or_concat nw with hnil | ⟨q, pr, hq⟩
          · exfalso
            subst hnil
            rw [hS1] at hwipe
            exact hH ci hci_len uv huvmem huv_unasg hwipe
          · rw [List.concat_eq_append] at hq
            refine ⟨q, pr, hq, ?_⟩
            have hpruv : pr.1 = uv := hnwvars pr (by rw [hq]; simp)
            rw [hpruv]
            exact hwipe
        · rw [if_neg hwipe] at heq
          have hasg1 : S1.asg = S.asg := by
            rw [hS1]
            exact applyPrunes_asg nw S
          have hH1 : ∀ ci2, ci2 < csp.cons.length → ∀ w ∈ (getCons csp ci2).scope,
              S1.asg.getD w none = none → curDomain S1 w ≠ [] := by
            intro ci2 hci2 w hw hwuna
            by_cases hwuv : w = uv
            · rw [hwuv]
              exact hwipe
            · have hcd : curDomain S1 w = curDomain S w := by
                refine curDomain_congr S S1 w hasg1 ?_
                rw [hS1]
                exact applyPrunes_rem_ne uv nw S w hnwvars hwuv
              rw [hcd]
              refine hH ci2 hci2 w hw ?_
              rw [← hasg1]
              exact hwuna
          obtain ⟨nw2, hp2, hS2, q, pr, hq, hwcd⟩ :=
            ih S1 p1 p2 S2 (fun ci2 hci2 => hlen ci2 (List.mem_cons_of_mem _ hci2)) hH1 heq
          refine ⟨nw ++ nw2, ?_, ?_, nw ++ q, pr, ?_, hwcd⟩
          · rw [hp2, hp1, List.append_assoc]
          · rw [hS2, hS1, ← applyPrunes_append]
          · rw [hq, List.append_assoc]
    · rw [fcLoop_cons_skip csp ci rest S p h1] at heq
      exact ih S p p2 S2 (fun ci2 hci2 => hlen ci2 (List.mem_cons_of_mem _ hci2)) hH heq

/-- C5: when prop_FC reports failure on a store whose relevant unassigned
variables start with non-empty current domains, the returned prune list
is exactly the prunings performed in the call, its last pair is the
pruning that emptied its variable's current domain, and nothing follows
that pair. -/
theorem prop_FC_wipeout_spec :
    ∀ (csp : CSPModel) (newVar : Option Nat) (S : Store) (p2 : List (Nat × Nat)) (S2 : Store),
      (∀ ci, ci < csp.cons.length → ∀ w ∈ (getCons csp ci).scope,
        S.asg.getD w none = none → curDomain S w ≠ []) →
      prop_FC csp newVar S = (false, p2, S2) →
      S2 = applyPrunes S p2 ∧ ∃ q pr, p2 = q ++ [pr] ∧ curDomain S2 pr.1 = [] := by
  intro csp newVar S p2 S2 hH heq
  have main : ∀ (cis : List Nat), (∀ ci ∈ cis, ci < csp.cons.length) →
      fcLoop csp cis S [] = (false, p2, S2) →
      S2 = applyPrunes S p2 ∧ ∃ q pr, p2 = q ++ [pr] ∧ curDomain S2 pr.1 = [] := by
    intro cis hlen h
    obtain ⟨nw, hp2, hS2, q, pr, hq, hcd⟩ := fcLoop_false_spec csp cis S [] p2 S2 hlen hH h
    rw [List.nil_append] at hp2
    subst hp2
    exact ⟨hS2, q, pr, hq, hcd⟩
  cases newVar with
  | none =>
    exact main (List.range csp.cons.length) (fun ci hci => List.mem_range.mp hci) heq
  | some v =>
    exact main (consWithVar csp v) (fun ci hci => ((consWithVar_mem csp v ci).mp hci).1) heq

/-- C5, witness: the wipeout characterisation applied to a concrete
failing forward-checking run. -/
theorem prop_FC_wipeout_spec_witness :
    (∀ ci, ci < wipeCsp.cons.length → ∀ w ∈ (getCons wipeCsp ci).scope,
      wipeStore.asg.getD w none = none → curDomain wipeStore w ≠ []) ∧
    prop_FC wipeCsp (some 0) wipeStore = (false, [(1, 1)], ⟨[[1, 2], []], [some 1, none]⟩) ∧
    ((⟨[[1, 2], []], [some 1, none]⟩ : Store) = applyPrunes wipeStore [(1, 1)] ∧
      ∃ q pr, ([(1, 1)] : List (Nat × Nat)) = q ++ [pr] ∧
        curDomain (⟨[[1, 2], []], [some 1, none]⟩ : Store) pr.1 = []) := by
  refine ⟨by decide, rfl, ?_⟩
  exact prop_FC_wipeout_spec wipeCsp (some 0) wipeStore [(1, 1)] _ (by decide) rfl

/-- Greater-than as the specification words it: the first component
exceeds the second. -/
def specGT : List Nat → Bool
  | a :: b :: _ => decide (b < a)
  | _ => false

/-- Less-than as the specification words it. -/
def specLT : List Nat → Bool
  | a :: b :: _ => decide (a < b)
  | _ => false

/-- Not-equal as the specification words it. -/
def specNE : List Nat → Bool
  | a :: b :: _ => decide (a ≠ b)
  | _ => false

/-- All-different as the specification words it: pairwise distinct
components. -/
def specAllDiff (t : List Nat) : Bool :=
  decide (List.Pairwise (fun a b => a ≠ b) t)

/-- The per-tuple dispatch-and-append loop equals a filter when the
dispatch succeeds. -/
theorem materializeTuples_filter (tag : Tag) (pred : List Nat → Bool)
    (h : switch tag = some pred) :
    ∀ l, materializeTuples tag l = some (l.filter pred) := by
  intro l
  induction l with
  | nil => rfl
  | cons t ts ih =>
    simp only [materializeTuples, h, ih, List.filter_cons]

/-- Tuples of the Cartesian product have one component per domain. -/
theorem listProd_mem_length :
    ∀ (ds : List (List Nat)) (t : List Nat), t ∈ listProd ds → t.length = ds.length := by
  intro ds
  induction ds with
  | nil =>
    intro t ht
    simp only [listProd, List.mem_singleton] at ht
    rw [ht]
    rfl
  | cons d ds ih =>
    intro t ht
    simp only [listProd, List.mem_flatten, List.mem_map] at ht
    obtain ⟨l, ⟨x, _, hl⟩, htl⟩ := ht
    rw [← hl] at htl
    simp only [List.mem_map] at htl
    obtain ⟨t2, ht2, htt⟩ := htl
    rw [← htt, List.length_cons, ih t2 ht2]
    rfl

/-- The nested index loops of all_different_check test exactly pairwise
distinctness. -/
theorem allDifferentCheck_pairwise :
    ∀ t, allDifferentCheck t = specAllDiff t := by
  intro t
  induction t with
  | nil => rfl
  | cons x xs ih =>
    rw [Bool.eq_iff_iff]
    simp only [allDifferentCheck, Bool.and_eq_true, List.all_eq_true, Bool.not_eq_true',
      beq_eq_false_iff_ne, ne_eq, specAllDiff, decide_eq_true_eq, List.pairwise_cons]
    constructor
    · rintro ⟨h1, h2⟩
      have h3 := ih ▸ h2
      simp only [specAllDiff, decide_eq_true_eq] at h3
      exact ⟨fun y hy => h1 y hy, h3⟩
    · rintro ⟨h1, h2⟩
      refine ⟨fun y hy => h1 y hy, ?_⟩
      rw [ih]
      simp only [specAllDiff, decide_eq_true_eq]
      exact h2

/-- C7 amended: check_constraint_add_tuples enumerates the Cartesian
product of the scope variables' ORIGINAL domains in scope order and keeps
exactly the tuples satisfying the operator (first greater than second,
first less than second, first different from second, or pairwise
distinct components). -/
theorem materializer_product_filter_spec :
    ∀ (doms : List (List Nat)) (scope : List Nat),
      (scope.length = 2 →
        check_constraint_add_tuples doms Tag.gt scope =
          some ((listProd (scope.map fun w => doms.getD w [])).filter specGT) ∧
        check_constraint_add_tuples doms Tag.lt scope =
          some ((listProd (scope.map fun w => doms.getD w [])).filter specLT) ∧
        check_constraint_add_tuples doms Tag.ne scope =
          some ((listProd (scope.map fun w => doms.getD w [])).filter specNE)) ∧
      check_constraint_add_tuples doms Tag.alldiff scope =
        some ((listProd (scope.map fun w => doms.getD w [])).filter specAllDiff) := by
  intro doms scope
  constructor
  · intro hlen
    have hplen : ∀ t ∈ listProd (scope.map fun w => doms.getD w []), t.length = 2 := by
      intro t ht
      rw [listProd_mem_length _ t ht, List.length_map, hlen]
    refine ⟨?_, ?_, ?_⟩
    · rw [check_constraint_add_tuples, materializeTuples_filter Tag.gt _ rfl]
      congr 1
      refine List.filter_congr ?_
      intro t ht
      obtain ⟨a, b, rfl⟩ := List.length_eq_two.mp (hplen t ht)
      rfl
    · rw [check_constraint_add_tuples, materializeTuples_filter Tag.lt _ rfl]
      congr 1
      refine List.filter_congr ?_
      intro t ht
      obtain ⟨a, b, rfl⟩ := List.length_eq_two.mp (hplen t ht)
      rfl
    · rw [check_constraint_add_tuples, materializeTuples_filter Tag.ne _ rfl]
      congr 1
      refine List.filter_congr ?_
      intro t ht
      obtain ⟨a, b, rfl⟩ := List.length_eq_two.mp (hplen t ht)
      simp only [specNE]
      rw [Bool.eq_iff_iff]
      simp [beq_iff_eq]
  · rw [check_constraint_add_tuples, materializeTuples_filter Tag.alldiff allDifferentCheck rfl]
    congr 1
    exact List.filter_congr fun t _ => allDifferentCheck_pairwise t

/-- C7 amended, witness: the product-filter characterisation at concrete
domains and scope. -/
theorem materializer_product_filter_spec_witness :
    ([0, 1] : List Nat).length = 2 ∧
    check_constraint_add_tuples [[1, 2], [1, 2]] Tag.gt [0, 1] =
      some ((listProd (([0, 1] : List Nat).map fun w => [[1, 2], [1, 2]].getD w [])).filter specGT) :=
  ⟨rfl, ((materializer_product_filter_spec [[1, 2], [1, 2]] [0, 1]).1 rfl).1⟩

/-- The plain-backtracking loop reports failure exactly when some
examined constraint is fully assigned and its assigned tuple misses the
satisfying set. -/
theorem btLoop_false_iff (csp : CSPModel) (S : Store) :
    ∀ cis, ((btLoop csp S cis).1 = false ↔
      ∃ ci ∈ cis, nUnasgn S (getCons csp ci) = 0 ∧
        consCheck (getCons csp ci) (scopeVals S (getCons csp ci).scope) = false) := by
  intro cis
  induction cis with
  | nil => simp [btLoop]
  | cons ci rest ih =>
    simp only [btLoop]
    by_cases h0 : nUnasgn S (getCons csp ci) = 0
    · rw [if_pos h0]
      by_cases hchk : consCheck (getCons csp ci) (scopeVals S (getCons csp ci).scope) = true
      · rw [if_pos hchk, ih]
        constructor
        · rintro ⟨ci2, h1, h2, h3⟩
          exact ⟨ci2, List.mem_cons_of_mem _ h1, h2, h3⟩
        · rintro ⟨ci2, h1, h2, h3⟩
          rcases List.mem_cons.mp h1 with h4 | h4
          · subst h4
            rw [hchk] at h3
            cases h3
          · exact ⟨ci2, h4, h2, h3⟩
      · rw [if_neg hchk]
        constructor
        · intro _
          exact ⟨ci, List.mem_cons_self _ _, h0, Bool.eq_false_iff.mpr hchk⟩
        · intro _
          rfl
    · rw [if_neg h0, ih]
      constructor
      · rintro ⟨ci2, h1, h2, h3⟩
        exact ⟨ci2, List.mem_cons_of_mem _ h1, h2, h3⟩
      · rintro ⟨ci2, h1, h2, h3⟩
        rcases List.mem_cons.mp h1 with h4 | h4
        · subst h4
          exact absurd h2 h0
        · exact ⟨ci2, h4, h2, h3⟩

/-- C9: prop_BT never prunes; invoked with no newly-assigned variable it
succeeds with an empty prune list, and invoked with a newly-assigned
variable it fails (with an empty prune list) exactly when some constraint
referencing that variable is fully assigned with its assigned tuple
outside the satisfying set. -/
theorem prop_BT_characterization :
    ∀ (csp : CSPModel) (S : Store),
      prop_BT csp none S = (true, []) ∧
      ∀ v, (prop_BT csp (some v) S).2 = [] ∧
        ((prop_BT csp (some v) S).1 = false ↔
          ∃ ci ∈ consWithVar csp v, nUnasgn S (getCons csp ci) = 0 ∧
            consCheck (getCons csp ci) (scopeVals S (getCons csp ci).scope) = false) := by
  intro csp S
  refine ⟨rfl, ?_⟩
  intro v
  exact ⟨btLoop_snd csp S (consWithVar csp v), btLoop_false_iff csp S (consWithVar csp v)⟩

/-- Well-formedness of one row's tokens for the encoders' symbol loop:
every token at a symbol position is one of the two inequality tokens or
the dot. -/
def rowTokensOK : List Tok → Bool → Bool
  | [], _ => true
  | t :: ts, isSym =>
    if isSym then
      (t == Tok.sym .sgt || t == Tok.sym .slt || t == Tok.sym .sdot) && rowTokensOK ts false
    else rowTokensOK ts true

/-- Well-formedness of a board: every row's symbol positions hold only
recognised tokens. -/
def boardOK (board : List (List Tok)) : Bool :=
  board.all fun row => rowTokensOK row false

/-- On a well-formed row, every constraint the symbol loop creates is
tagged greater-than or less-than. -/
theorem rowSymCons_tags (doms grid : List (List Nat)) (i : Nat) :
    ∀ (ts : List Tok) (j : Nat) (isSym : Bool), rowTokensOK ts isSym = true →
      ∀ c ∈ rowSymCons doms grid i ts j isSym, c.tag = Tag.gt ∨ c.tag = Tag.lt := by
  intro ts
  induction ts with
  | nil => intro j isSym _ c hc; cases hc
  | cons t ts ih =>
    intro j isSym hok c hc
    cases isSym with
    | false =>
      refine ih j true ?_ c ?_
      · simpa [rowTokensOK] using hok
      · simpa [rowSymCons] using hc
    | true =>
      have hok3 : ((t == Tok.sym .sgt || t == Tok.sym .slt || t == Tok.sym .sdot) &&
          rowTokensOK ts false) = true := hok
      obtain ⟨hok1, hok2⟩ := Bool.and_eq_true_iff.mp hok3
      have hc3 : c ∈ (if t = Tok.sym .sdot then []
          else [mkCons doms (tokTag t) [gridGet grid i j, gridGet grid i (j + 1)]]) ++
          rowSymCons doms grid i ts (j + 1) false := hc
      rcases List.mem_append.mp hc3 with h | h
      · by_cases hdot : t = Tok.sym .sdot
        · rw [if_pos hdot] at h
          cases h
        · rw [if_neg hdot] at h
          rw [List.mem_singleton.mp h]
          simp only [Bool.or_eq_true, beq_iff_eq] at hok1
          rcases hok1 with (h1 | h1) | h1
          · rw [h1]
            exact Or.inl rfl
          · rw [h1]
            exact Or.inr rfl
          · exact absurd h1 hdot
      · exact ih (j + 1) false hok2 c h

/-- On a well-formed board, every constraint created from an inequality
token is tagged greater-than or less-than. -/
theorem symConsAll_tags (doms grid : List (List Nat)) (board : List (List Tok))
    (hok : boardOK board = true) :
    ∀ c ∈ symConsAll doms grid board, c.tag = Tag.gt ∨ c.tag = Tag.lt := by
  intro c hc
  simp only [symConsAll, List.mem_flatten, List.mem_map] at hc
  obtain ⟨l, ⟨p, hp, hl⟩, hcl⟩ := hc
  rw [← hl] at hcl
  have hrow : p.2 ∈ board := enumFrom_snd_mem board 0 p hp
  have hrok : rowTokensOK p.2 false = true := by
    simp only [boardOK, List.all_eq_true] at hok
    exact hok p.2 hrow
  exact rowSymCons_tags doms grid p.1 p.2 0 false hrok c hcl

/-- Every row/column pair constraint of model 1 is tagged not-equal. -/
theorem m1RowColCons_tags (doms grid : List (List Nat)) (size : Nat) :
    ∀ c ∈ m1RowColCons doms grid size, c.tag = Tag.ne := by
  intro c hc
  simp only [m1RowColCons, List.mem_flatMap, List.mem_append, List.mem_map] at hc
  obtain ⟨i, _, a, _, hc⟩ := hc
  rcases hc with ⟨j, _, hj⟩ | ⟨k, _, hk⟩
  · rw [← hj]
    rfl
  · rw [← hk]
    rfl

/-- C10: on a well-formed board, every constraint produced by either
encoder carries one of the four recognised operator tags, so the
dispatch-table lookup in the materializer always succeeds. -/
theorem encoder_tags_hit_switch :
    ∀ (board : List (List Tok)), boardOK board = true →
      (∀ c ∈ (futoshiki_csp_model_1 board).1.cons, (switch c.tag).isSome = true) ∧
      (∀ c ∈ (futoshiki_csp_model_2 board).1.cons, (switch c.tag).isSome = true) := by
  intro board hok
  constructor
  · intro c hc
    have heq : (futoshiki_csp_model_1 board).1.cons =
        m1RowColCons (boardDomains board) (varGrid board) board.length ++
          symConsAll (boardDomains board) (varGrid board) board := rfl
    rw [heq] at hc
    rcases List.mem_append.mp hc with h | h
    · rw [m1RowColCons_tags _ _ _ c h]
      rfl
    · rcases symConsAll_tags _ _ board hok c h with h2 | h2 <;> rw [h2] <;> rfl
  · intro c hc
    have heq : (futoshiki_csp_model_2 board).1.cons =
        ((List.range board.length).map fun i =>
          mkCons (boardDomains board) .alldiff ((varGrid board).getD i [])) ++
        ((List.range board.length).map fun j =>
          mkCons (boardDomains board) .alldiff ((varGrid board).map fun r => r.getD j 0)) ++
        symConsAll (boardDomains board) (varGrid board) board := rfl
    rw [heq] at hc
    rcases List.mem_append.mp hc with h | h
    · rcases List.mem_append.mp h with h2 | h2
      · obtain ⟨i, _, hi⟩ := List.mem_map.mp h2
        rw [← hi]
        rfl
      · obtain ⟨j, _, hj⟩ := List.mem_map.mp h2
        rw [← hj]
        rfl
    · rcases symConsAll_tags _ _ board hok c h with h2 | h2 <;> rw [h2] <;> rfl

/-- C10, witness: the tag property applied to a concrete well-formed
2-by-2 board and the first constraint of its variant-A model. -/
theorem encoder_tags_hit_switch_witness :
    boardOK board2 = true ∧
    (switch ((futoshiki_csp_model_1 board2).1.cons.getD 0 default).tag).isSome = true := by
  refine ⟨rfl, ?_⟩
  refine (encoder_tags_hit_switch board2 rfl).1 _ ?_
  decide

/-- C2 amended, witness: a concrete forward-checking failure whose
reported pair (1, 1) names the unassigned variable 1. -/
theorem bt_fc_never_prune_assigned_witness :
    (1, 1) ∈ (prop_FC asgCsp (some 0) asgStore).2.1 ∧
    asgStore.asg.getD 1 none = none :=
  ⟨by decide, (bt_fc_never_prune_assigned asgCsp (some 0) asgStore).2 (1, 1) (by decide)⟩

/-- C6 amended, witness: the 1-by-1 characterisation applied to the blank
board, with the first variant-B constraint checked to be all-different. -/
theorem encoders_n1_models_witness :
    (futoshiki_csp_model_1 [[Tok.num 0]]).1.cons = [] ∧
    ((futoshiki_csp_model_2 [[Tok.num 0]]).1.cons.getD 0 default ∈
      (futoshiki_csp_model_2 [[Tok.num 0]]).1.cons) ∧
    ((futoshiki_csp_model_2 [[Tok.num 0]]).1.cons.getD 0 default).tag = Tag.alldiff :=
  ⟨(encoders_n1_models (Tok.num 0)).1, by decide,
   ((encoders_n1_models (Tok.num 0)).2.2.2.2.2 _ (by decide)).1⟩

end Futoshiki
